import Mathlib

/-!
Verification development for the `inscribememaybe` repository.

The development shallowly embeds the two parts of the code the claims are
about:

* the submission engine `Inscriber` from `src/main.rs` (nonce allocation,
  bounded-concurrency task pool, retry routing, completion events), and
* the inscription calldata encoding and the serde serialization of the
  `Deploy` / `Mint` / `Transfer` operations from `src/lib.rs` and
  `src/protocol.rs`.

Machine integers (`u64`, `usize`) are modelled as `Nat`; byte buffers as
`List Nat`; the asynchronous environment (which pending transaction future
resolves next, and with which result) as an explicit schedule, a list of
`(index, outcome)` choices consumed one per engine-loop iteration.
-/

/-! ## Part 1: the submission engine (`src/main.rs`) -/

/-- An EVM account address (opaque 160-bit value, modelled as `Nat`). -/
abbrev Address := Nat

/-- A byte buffer (Rust `Vec<u8>` / `Bytes`). -/
abbrev Bytes := List Nat

/-- The part of `ethers::TransactionReceipt` the program reads: the
transaction hash and the block number (`receipt.transaction_hash`,
`receipt.block_number` in `MintArgs::run_mint`). -/
structure TransactionReceipt where
  transaction_hash : Nat
  block_number : Option Nat
deriving DecidableEq, Repr

/-- The transaction descriptor built by `Inscriber::next_transaction`:
`TransactionRequest::new().to(..).value(..).gas(..).nonce(..).data(..)`. -/
structure TypedTransaction where
  «to» : Address
  value : Nat
  gas : Nat
  nonce : Nat
  data : Bytes
deriving DecidableEq, Repr

/-- The result of one submission future, `res: eyre::Result<Option<TransactionReceipt>>`
in `InscriptionResult`: `ok (some r)` is a confirmed receipt, `ok none` is a
broadcast that produced no receipt, `err` is any signing/network error
(the error value itself is never inspected by the engine, only logged). -/
inductive TaskOutcome where
  | ok : Option TransactionReceipt → TaskOutcome
  | err : TaskOutcome
deriving DecidableEq, Repr

/-- The event type `InscriptionEvent` from `src/main.rs`. Note the code's
variant `Mint { receipt, sender, chain_id, calldata }` has exactly these
four fields; in particular it has no nonce field. -/
inductive InscriptionEvent where
  | mint : (receipt : TransactionReceipt) → (sender : Address) →
      (chain_id : Nat) → (calldata : Bytes) → InscriptionEvent
deriving DecidableEq, Repr

/-- The engine state, the fields of `struct Inscriber<M>` from `src/main.rs`.
The in-progress futures collection `pending: FuturesUnordered<..>` is
modelled by the list of descriptors of the outstanding submissions (each
future stores its descriptor `tx` and nonce and yields them back in its
`InscriptionResult`); the opaque provider/signer collaborator is omitted,
its behaviour is supplied by the schedule. -/
structure Inscriber where
  pending : List TypedTransaction
  calldata : Bytes
  sender : Address
  count : Nat
  highest_nonce : Nat
  max_transactions : Nat
  concurrency : Nat
  chain_id : Nat
deriving DecidableEq, Repr

/-- `Inscriber::next_transaction`: builds the descriptor for the current
`highest_nonce` — recipient is the sender itself, zero value, fixed gas
limit 22200, the calldata as data. -/
def Inscriber.next_transaction (s : Inscriber) : TypedTransaction :=
  { «to» := s.sender, value := 0, gas := 22200,
    nonce := s.highest_nonce, data := s.calldata }

/-- `Inscriber::start_transaction`: pushes a new submission future for `tx`
onto the `pending` collection. -/
def Inscriber.start_transaction (s : Inscriber) (tx : TypedTransaction) : Inscriber :=
  { s with pending := s.pending ++ [tx] }

/-- The fill loop of `poll_next`:
`while pending.len() < concurrency && count < max_transactions { start; highest_nonce += 1; count += 1 }`,
written with explicit fuel (each iteration increases `count`, so
`max_transactions - count` bounds the number of iterations; the loop guard
is re-checked inside, hence the fuel version computes exactly the loop).
Returns the new state together with the list of descriptors started, in
order. `fillStep` is the loop body: build the descriptor for the current
`highest_nonce`, start it, then increment `highest_nonce` and `count`. -/
def fillStep (s : Inscriber) : Inscriber :=
  { s.start_transaction s.next_transaction with
    highest_nonce := s.highest_nonce + 1, count := s.count + 1 }

/-- The fill loop proper; see `fillStep` for the loop body. -/
def fillFuel : Nat → Inscriber → Inscriber × List TypedTransaction
  | 0, s => (s, [])
  | fuel + 1, s =>
    if s.pending.length < s.concurrency ∧ s.count < s.max_transactions then
      ((fillFuel fuel (fillStep s)).1,
        s.next_transaction :: (fillFuel fuel (fillStep s)).2)
    else (s, [])

/-- The fill step of `poll_next` (see `fillFuel`). -/
def fill (s : Inscriber) : Inscriber × List TypedTransaction :=
  fillFuel (s.max_transactions - s.count) s

/-- One resolution step of `poll_next`: the schedule picks which pending
future resolves (`i`, FuturesUnordered resolves them in an arbitrary order)
and its outcome `o`. The task is removed from `pending`; on
`Ok(Some(receipt))` a `Mint` event is emitted; on `Ok(None)` or `Err` the
very same descriptor is resubmitted via `start_transaction`. The emitted
event is paired with the resolved task's nonce (ghost data for
specification; the event itself carries no nonce). The third component
lists the descriptors (re)submitted by this step. If `i` is out of range
no future is ready and nothing happens. -/
def resolve (s : Inscriber) (i : Nat) (o : TaskOutcome) :
    Option (Nat × InscriptionEvent) × Inscriber × List TypedTransaction :=
  match s.pending[i]? with
  | none => (none, s, [])
  | some tx =>
    let s' := { s with pending := s.pending.eraseIdx i }
    match o with
    | .ok (some receipt) =>
      (some (tx.nonce, .mint receipt s.sender s.chain_id s.calldata), s', [])
    | .ok none => (none, s'.start_transaction tx, [tx])
    | .err => (none, s'.start_transaction tx, [tx])

/-- The termination test at the top of the `poll_next` loop:
`count >= max_transactions && pending.is_empty()`. -/
def Inscriber.done (s : Inscriber) : Bool :=
  s.max_transactions ≤ s.count && s.pending.isEmpty

/-- The outcome of running the engine loop against a schedule. -/
structure RunResult where
  /-- Events emitted, in emission order, each paired (ghost) with the nonce
  of the task whose confirmation produced it. -/
  events : List (Nat × InscriptionEvent)
  /-- Every descriptor passed to `start_transaction` during the run
  (fresh allocations and retries alike), in order. -/
  subs : List TypedTransaction
  /-- The engine state when the run stopped. -/
  final : Inscriber
  /-- `true` when the run stopped because the stream ended
  (`poll_next` returned `Ready(None)`); `false` when the schedule ran out,
  i.e. the engine suspended waiting for a future. -/
  ended : Bool
deriving DecidableEq, Repr

/-- The engine loop of `Inscriber::poll_next`, iterated over a schedule:
each iteration checks the done condition (stream end), then fills up to the
concurrency limit, then resolves the scheduled pending future. Stops when
done (stream ends) or when the schedule is exhausted (engine suspends). -/
def run (s : Inscriber) : List (Nat × TaskOutcome) → RunResult
  | [] => if s.done then ⟨[], [], s, true⟩ else ⟨[], [], s, false⟩
  | (i, o) :: rest =>
    if s.done then ⟨[], [], s, true⟩
    else
      let f := fill s
      let r := resolve f.1 i o
      let t := run r.2.1 rest
      ⟨r.1.toList ++ t.events, f.2 ++ r.2.2 ++ t.subs, t.final, t.ended⟩

/-- The engine state as constructed in `MintArgs::run_mint`: empty pending
set, zero count, next nonce seeded from the chain. -/
def initInscriber (cd : Bytes) (sender : Address) (n0 N C cid : Nat) : Inscriber :=
  { pending := [], calldata := cd, sender := sender, count := 0,
    highest_nonce := n0, max_transactions := N, concurrency := C, chain_id := cid }

/-! ### Engine lemmas -/

/-- The shape of every descriptor the engine ever builds (see
`Inscriber.next_transaction`): only the nonce varies between submissions of
one run. -/
def mkTx (sender : Address) (cd : Bytes) (n : Nat) : TypedTransaction :=
  { «to» := sender, value := 0, gas := 22200, nonce := n, data := cd }

theorem next_transaction_eq (s : Inscriber) :
    s.next_transaction = mkTx s.sender s.calldata s.highest_nonce := rfl
theorem fillStep_fields (s : Inscriber) :
    (fillStep s).pending = s.pending ++ [s.next_transaction] ∧
    (fillStep s).count = s.count + 1 ∧
    (fillStep s).highest_nonce = s.highest_nonce + 1 ∧
    (fillStep s).calldata = s.calldata ∧
    (fillStep s).sender = s.sender ∧
    (fillStep s).max_transactions = s.max_transactions ∧
    (fillStep s).concurrency = s.concurrency ∧
    (fillStep s).chain_id = s.chain_id := by
  simp [fillStep, Inscriber.start_transaction]

theorem fillFuel_spec (fuel : Nat) (s : Inscriber) :
    (fillFuel fuel s).1.pending = s.pending ++ (fillFuel fuel s).2 ∧
    (fillFuel fuel s).1.count = s.count + (fillFuel fuel s).2.length ∧
    (fillFuel fuel s).1.highest_nonce = s.highest_nonce + (fillFuel fuel s).2.length ∧
    (fillFuel fuel s).1.calldata = s.calldata ∧
    (fillFuel fuel s).1.sender = s.sender ∧
    (fillFuel fuel s).1.max_transactions = s.max_transactions ∧
    (fillFuel fuel s).1.concurrency = s.concurrency ∧
    (fillFuel fuel s).1.chain_id = s.chain_id ∧
    (fillFuel fuel s).2 =
      (List.range' s.highest_nonce (fillFuel fuel s).2.length).map (mkTx s.sender s.calldata) := by
  induction fuel generalizing s with
  | zero => simp [fillFuel]
  | succ fuel ih =>
    by_cases hc : s.pending.length < s.concurrency ∧ s.count < s.max_transactions
    · simp only [fillFuel, if_pos hc]
      obtain ⟨h1, h2, h3, h4, h5, h6, h7, h8, h9⟩ := ih (fillStep s)
      obtain ⟨g1, g2, g3, g4, g5, g6, g7, g8⟩ := fillStep_fields s
      refine ⟨?_, ?_, ?_, ?_, ?_, ?_, ?_, ?_, ?_⟩
      · rw [h1, g1]; simp
      · rw [h2, g2]; simp; omega
      · rw [h3, g3]; simp; omega
      · rw [h4, g4]
      · rw [h5, g5]
      · rw [h6, g6]
      · rw [h7, g7]
      · rw [h8, g8]
      · simp only [List.length_cons, List.range'_succ, List.map_cons]
        refine congrArg₂ _ rfl ?_
        rw [h9, g3, g4, g5]; simp
    · simp [fillFuel, if_neg hc]

theorem fillFuel_count_le (fuel : Nat) (s : Inscriber)
    (h : s.count ≤ s.max_transactions) :
    (fillFuel fuel s).1.count ≤ (fillFuel fuel s).1.max_transactions := by
  induction fuel generalizing s with
  | zero => simpa [fillFuel] using h
  | succ fuel ih =>
    by_cases hc : s.pending.length < s.concurrency ∧ s.count < s.max_transactions
    · simp only [fillFuel, if_pos hc]
      exact ih _ (by simp [fillStep, Inscriber.start_transaction]; omega)
    · simpa [fillFuel, if_neg hc] using h

theorem fillFuel_len_le (fuel : Nat) (s : Inscriber)
    (h : s.pending.length ≤ s.concurrency) :
    (fillFuel fuel s).1.pending.length ≤ (fillFuel fuel s).1.concurrency := by
  induction fuel generalizing s with
  | zero => simpa [fillFuel] using h
  | succ fuel ih =>
    by_cases hc : s.pending.length < s.concurrency ∧ s.count < s.max_transactions
    · simp only [fillFuel, if_pos hc]
      exact ih _ (by simp [fillStep, Inscriber.start_transaction]; omega)
    · simpa [fillFuel, if_neg hc] using h

/-- After the fill loop runs, its guard is false: either the concurrency
limit is saturated or the target count has been reached. -/
theorem fillFuel_guard (fuel : Nat) (s : Inscriber)
    (hfuel : s.max_transactions - s.count ≤ fuel) :
    (fillFuel fuel s).1.concurrency ≤ (fillFuel fuel s).1.pending.length ∨
    (fillFuel fuel s).1.max_transactions ≤ (fillFuel fuel s).1.count := by
  induction fuel generalizing s with
  | zero => simp [fillFuel]; omega
  | succ fuel ih =>
    by_cases hc : s.pending.length < s.concurrency ∧ s.count < s.max_transactions
    · simp only [fillFuel, if_pos hc]
      exact ih _ (by simp [fillStep, Inscriber.start_transaction]; omega)
    · simp only [fillFuel, if_neg hc]; omega

theorem resolve_out_of_range (s : Inscriber) (i : Nat) (o : TaskOutcome)
    (h : s.pending.length ≤ i) : resolve s i o = (none, s, []) := by
  have : s.pending[i]? = none := by
    simp [List.getElem?_eq_none_iff]; omega
  simp [resolve, this]

theorem resolve_confirm (s : Inscriber) (i : Nat) (r : TransactionReceipt)
    (tx : TypedTransaction) (h : s.pending[i]? = some tx) :
    resolve s i (.ok (some r)) =
      (some (tx.nonce, .mint r s.sender s.chain_id s.calldata),
       { s with pending := s.pending.eraseIdx i }, []) := by
  simp [resolve, h]

theorem resolve_retry (s : Inscriber) (i : Nat) (o : TaskOutcome)
    (tx : TypedTransaction) (h : s.pending[i]? = some tx)
    (ho : o = .ok none ∨ o = .err) :
    resolve s i o =
      (none, { s with pending := s.pending.eraseIdx i ++ [tx] }, [tx]) := by
  rcases ho with rfl | rfl <;> simp [resolve, h, Inscriber.start_transaction]

/-- A list is a permutation of the element at index `i` consed onto the
list with index `i` erased. -/
theorem perm_cons_eraseIdx : ∀ (l : List α) (i : Nat) (a : α),
    l[i]? = some a → l.Perm (a :: l.eraseIdx i)
  | [], i, a, h => by simp at h
  | b :: t, 0, a, h => by
    simp at h
    subst h
    simp [List.eraseIdx]
  | b :: t, i + 1, a, h => by
    simp only [List.getElem?_cons_succ] at h
    have ht := perm_cons_eraseIdx t i a h
    have he : (b :: t).eraseIdx (i + 1) = b :: t.eraseIdx i := rfl
    rw [he]
    exact (ht.cons b).trans (List.Perm.swap a b (t.eraseIdx i))

/-- The engine invariant, relative to the initial nonce `n0`:
`highest_nonce` tracks the count of allocated nonces, the count never
exceeds the target, the in-flight set respects the concurrency ceiling,
every in-flight nonce was allocated (lies in `[n0, highest_nonce)`), no two
in-flight tasks share a nonce, and every in-flight descriptor has the shape
built by `next_transaction`. -/
structure EngineInv (n0 : Nat) (s : Inscriber) : Prop where
  hcount : s.highest_nonce = n0 + s.count
  hmax : s.count ≤ s.max_transactions
  hlen : s.pending.length ≤ s.concurrency
  hmem : ∀ tx ∈ s.pending, n0 ≤ tx.nonce ∧ tx.nonce < s.highest_nonce
  hnodup : (s.pending.map TypedTransaction.nonce).Nodup
  hshape : ∀ tx ∈ s.pending, tx = mkTx s.sender s.calldata tx.nonce

/-- The invariant only depends on the pending list up to permutation /
shrinking, and on the listed fields. -/
theorem inv_congr (n0 : Nat) (s s' : Inscriber) (hI : EngineInv n0 s)
    (hp : s'.pending.Perm s.pending ∨ s'.pending.Sublist s.pending)
    (h2 : s'.calldata = s.calldata) (h3 : s'.sender = s.sender)
    (h4 : s'.count = s.count) (h5 : s'.highest_nonce = s.highest_nonce)
    (h6 : s'.max_transactions = s.max_transactions)
    (h7 : s'.concurrency = s.concurrency) : EngineInv n0 s' := by
  obtain ⟨c1, c2, c3, c4, c5, c6⟩ := hI
  constructor
  · rw [h5, h4]; exact c1
  · rw [h4, h6]; exact c2
  · rcases hp with hp | hp
    · rw [hp.length_eq, h7]; exact c3
    · exact le_trans (hp.length_le) (h7 ▸ c3)
  · intro tx htx
    rw [h5]
    rcases hp with hp | hp
    · exact c4 tx (hp.mem_iff.mp htx)
    · exact c4 tx (hp.mem htx)
  · rcases hp with hp | hp
    · exact ((hp.map TypedTransaction.nonce).symm).nodup c5
    · exact ((hp.map TypedTransaction.nonce)).nodup c5
  · intro tx htx
    rw [h3, h2]
    rcases hp with hp | hp
    · exact c6 tx (hp.mem_iff.mp htx)
    · exact c6 tx (hp.mem htx)

/-- The fill step preserves the engine invariant. -/
theorem fill_inv (n0 : Nat) (s : Inscriber) (hI : EngineInv n0 s) :
    EngineInv n0 (fill s).1 := by
  obtain ⟨e1, e2, e3, e4, e5, e6, e7, e8, e9⟩ :=
    fillFuel_spec (s.max_transactions - s.count) s
  obtain ⟨c1, c2, c3, c4, c5, c6⟩ := hI
  have hnon : ((fillFuel (s.max_transactions - s.count) s).2.map TypedTransaction.nonce) =
      List.range' s.highest_nonce (fillFuel (s.max_transactions - s.count) s).2.length := by
    conv_lhs => rw [e9]
    have hid : (TypedTransaction.nonce ∘ mkTx s.sender s.calldata) = id := by
      funext n; rfl
    rw [List.map_map, hid, List.map_id]
  show EngineInv n0 (fillFuel (s.max_transactions - s.count) s).1
  constructor
  · rw [e3, e2, c1]; omega
  · exact fillFuel_count_le (s.max_transactions - s.count) s c2
  · exact fillFuel_len_le (s.max_transactions - s.count) s c3
  · intro tx htx
    rw [e1] at htx
    rw [e3]
    rcases List.mem_append.mp htx with h | h
    · have := c4 tx h
      omega
    · have hm : tx.nonce ∈
          (fillFuel (s.max_transactions - s.count) s).2.map TypedTransaction.nonce :=
        List.mem_map_of_mem _ h
      rw [hnon] at hm
      have := List.mem_range'_1.mp hm
      omega
  · rw [e1, List.map_append, List.nodup_append]
    refine ⟨c5, ?_, ?_⟩
    · rw [hnon]; exact List.nodup_range' _ _
    · intro a ha hb
      rw [hnon] at hb
      have hlt : a < s.highest_nonce := by
        obtain ⟨tx, htx, rfl⟩ := List.mem_map.mp ha
        exact (c4 tx htx).2
      have := List.mem_range'_1.mp hb
      omega
  · intro tx htx
    rw [e1] at htx
    rw [e4, e5]
    rcases List.mem_append.mp htx with h | h
    · exact c6 tx h
    · rw [e9] at h
      obtain ⟨n, hn, rfl⟩ := List.mem_map.mp h
      rfl

/-- Resolving a pending task (whatever the outcome) preserves the engine
invariant. -/
theorem resolve_inv (n0 : Nat) (s : Inscriber) (i : Nat) (o : TaskOutcome)
    (hI : EngineInv n0 s) : EngineInv n0 (resolve s i o).2.1 := by
  rcases ho : s.pending[i]? with _ | tx
  · simpa [resolve, ho] using hI
  · have hperm := perm_cons_eraseIdx s.pending i tx ho
    rcases o with (_ | r) | _
    · -- Ok(None): retry, pending is eraseIdx ++ [tx], a permutation of pending
      rw [resolve_retry s i _ tx ho (Or.inl rfl)]
      refine inv_congr n0 s _ hI (Or.inl ?_) rfl rfl rfl rfl rfl rfl
      exact (List.perm_append_singleton tx _).trans hperm.symm
    · -- Ok(Some r)): confirm, pending shrinks
      rw [resolve_confirm s i r tx ho]
      exact inv_congr n0 s _ hI (Or.inr (List.eraseIdx_sublist _ i)) rfl rfl rfl rfl rfl rfl
    · -- Err: retry
      rw [resolve_retry s i _ tx ho (Or.inr rfl)]
      refine inv_congr n0 s _ hI (Or.inl ?_) rfl rfl rfl rfl rfl rfl
      exact (List.perm_append_singleton tx _).trans hperm.symm

/-- Rotation of a three-part concatenation, up to permutation. -/
theorem perm_rot (A B C : List α) : (A ++ (B ++ C)).Perm (C ++ A ++ B) := by
  have h1 : A ++ (B ++ C) = (A ++ B) ++ C := (List.append_assoc A B C).symm
  have h2 : (A ++ B ++ C).Perm (C ++ (A ++ B)) := List.perm_append_comm
  rw [h1, ← List.append_assoc C A B] at *
  exact h2

/-- `fillFuel_spec` restated for `fill`. -/
theorem fill_spec (s : Inscriber) :
    (fill s).1.pending = s.pending ++ (fill s).2 ∧
    (fill s).1.count = s.count + (fill s).2.length ∧
    (fill s).1.highest_nonce = s.highest_nonce + (fill s).2.length ∧
    (fill s).1.calldata = s.calldata ∧
    (fill s).1.sender = s.sender ∧
    (fill s).1.max_transactions = s.max_transactions ∧
    (fill s).1.concurrency = s.concurrency ∧
    (fill s).1.chain_id = s.chain_id ∧
    (fill s).2 =
      (List.range' s.highest_nonce (fill s).2.length).map (mkTx s.sender s.calldata) :=
  fillFuel_spec (s.max_transactions - s.count) s

/-- The nonces of the descriptors started by one fill step are exactly the
next `(fill s).2.length` consecutive nonces. -/
theorem fill_subs_nonces (s : Inscriber) :
    (fill s).2.map TypedTransaction.nonce =
      List.range' s.highest_nonce (fill s).2.length := by
  have e9 := (fill_spec s).2.2.2.2.2.2.2.2
  conv_lhs => rw [e9]
  have hid : (TypedTransaction.nonce ∘ mkTx s.sender s.calldata) = id := by
    funext n; rfl
  rw [List.map_map, hid, List.map_id]

/-- Once the engine is done, any further polling produces nothing: no
events, no submissions, no state change, and the stream reports its end. -/
theorem run_done (s : Inscriber) (sched : List (Nat × TaskOutcome))
    (h : s.done = true) : run s sched = ⟨[], [], s, true⟩ := by
  cases sched with
  | nil => simp [run, h]
  | cons p rest => obtain ⟨i, o⟩ := p; simp [run, h]

theorem run_nil_not_done (s : Inscriber) (h : s.done = false) :
    run s [] = ⟨[], [], s, false⟩ := by
  simp [run, h]

theorem run_cons_not_done (s : Inscriber) (i : Nat) (o : TaskOutcome)
    (rest : List (Nat × TaskOutcome)) (h : s.done = false) :
    run s ((i, o) :: rest) =
      ⟨(resolve (fill s).1 i o).1.toList ++ (run (resolve (fill s).1 i o).2.1 rest).events,
       (fill s).2 ++ (resolve (fill s).1 i o).2.2 ++ (run (resolve (fill s).1 i o).2.1 rest).subs,
       (run (resolve (fill s).1 i o).2.1 rest).final,
       (run (resolve (fill s).1 i o).2.1 rest).ended⟩ := by
  simp [run, h]

/-- Reassociation step used when assembling the nonce-accounting
permutation across one loop iteration. -/
theorem perm_assemble (sh k m : Nat) (P X : List Nat)
    (h : X.Perm (List.range' (sh + k) m ++ (P ++ List.range' sh k))) :
    X.Perm (List.range' sh (m + k) ++ P) := by
  have hr : List.range' sh k ++ List.range' (sh + k) m = List.range' sh (m + k) := by
    have h0 := List.range'_append sh k m 1
    rwa [one_mul] at h0
  have h2 := h.trans (perm_rot (List.range' (sh + k) m) P (List.range' sh k))
  rw [← hr]
  exact h2

/-- Trace-level specification of the engine loop: the invariant is
preserved, the configuration fields never change, the count only grows, the
ghost nonces of the emitted events together with the nonces still in flight
form a permutation of the nonces allocated (the initial in-flight ones plus
the freshly allocated consecutive block), every submission's nonce lies in
`[n0, n0 + max_transactions)`, and every emitted event carries the run's
sender address, chain id and calldata. -/
theorem run_spec (n0 : Nat) (sched : List (Nat × TaskOutcome)) (s : Inscriber)
    (hI : EngineInv n0 s) :
    EngineInv n0 (run s sched).final ∧
    (run s sched).final.calldata = s.calldata ∧
    (run s sched).final.sender = s.sender ∧
    (run s sched).final.max_transactions = s.max_transactions ∧
    (run s sched).final.concurrency = s.concurrency ∧
    (run s sched).final.chain_id = s.chain_id ∧
    s.count ≤ (run s sched).final.count ∧
    ((run s sched).events.map Prod.fst ++
        (run s sched).final.pending.map TypedTransaction.nonce).Perm
      (List.range' s.highest_nonce ((run s sched).final.count - s.count) ++
        s.pending.map TypedTransaction.nonce) ∧
    (∀ tx ∈ (run s sched).subs, n0 ≤ tx.nonce ∧ tx.nonce < n0 + s.max_transactions) ∧
    (∀ e ∈ (run s sched).events,
      ∃ r, e.2 = InscriptionEvent.mint r s.sender s.chain_id s.calldata) := by
  induction sched generalizing s with
  | nil =>
    rcases hd : s.done with _ | _
    · rw [run_nil_not_done s hd]
      refine ⟨hI, rfl, rfl, rfl, rfl, rfl, le_refl _, ?_, by simp, by simp⟩
      simp only [List.map_nil, List.nil_append, Nat.sub_self, List.range'_zero]
      exact List.Perm.refl _
    · rw [run_done s [] hd]
      refine ⟨hI, rfl, rfl, rfl, rfl, rfl, le_refl _, ?_, by simp, by simp⟩
      simp only [List.map_nil, List.nil_append, Nat.sub_self, List.range'_zero]
      exact List.Perm.refl _
  | cons p rest ih =>
    obtain ⟨i, o⟩ := p
    rcases hd : s.done with _ | _
    case cons.mk.true =>
      rw [run_done s _ hd]
      refine ⟨hI, rfl, rfl, rfl, rfl, rfl, le_refl _, ?_, by simp, by simp⟩
      simp only [List.map_nil, List.nil_append, Nat.sub_self, List.range'_zero]
      exact List.Perm.refl _
    case cons.mk.false =>
      have hrw := run_cons_not_done s i o rest hd
      obtain ⟨e1, e2, e3, e4, e5, e6, e7, e8, e9⟩ := fill_spec s
      have hnon := fill_subs_nonces s
      have hIF : EngineInv n0 (fill s).1 := fill_inv n0 s hI
      have hfillsub : ∀ tx ∈ (fill s).2,
          n0 ≤ tx.nonce ∧ tx.nonce < n0 + s.max_transactions := by
        intro tx htx
        have hm : tx.nonce ∈ (fill s).2.map TypedTransaction.nonce :=
          List.mem_map_of_mem _ htx
        rw [hnon] at hm
        have hb := List.mem_range'_1.mp hm
        have h1 := hI.hcount
        have h2 := hIF.hcount
        have h3 := hIF.hmax
        rw [e6] at h3
        rw [e3, e2] at h2
        omega
      have hP1 : (fill s).1.pending.map TypedTransaction.nonce =
          s.pending.map TypedTransaction.nonce ++
            List.range' s.highest_nonce (fill s).2.length := by
        rw [e1, List.map_append, hnon]
      rcases ho : (fill s).1.pending[i]? with _ | tx
      · -- index out of range: resolve is a no-op
        have hres : resolve (fill s).1 i o = (none, (fill s).1, []) := by
          simp [resolve, ho]
        obtain ⟨I1, I2, I3, I4, I5, I6, I7, I8, I9, I10⟩ := ih ((fill s).1) hIF
        have hev : (run s ((i, o) :: rest)).events = (run (fill s).1 rest).events := by
          rw [hrw, hres]; simp
        have hsubs : (run s ((i, o) :: rest)).subs =
            (fill s).2 ++ (run (fill s).1 rest).subs := by
          rw [hrw, hres]; simp
        have hfin : (run s ((i, o) :: rest)).final = (run (fill s).1 rest).final := by
          rw [hrw, hres]
        have harith : (run (fill s).1 rest).final.count - s.count =
            ((run (fill s).1 rest).final.count - (fill s).1.count) +
              (fill s).2.length := by
          omega
        refine ⟨hfin ▸ I1, ?_, ?_, ?_, ?_, ?_, ?_, ?_, ?_, ?_⟩
        · rw [hfin]; exact I2.trans e4
        · rw [hfin]; exact I3.trans e5
        · rw [hfin]; exact I4.trans e6
        · rw [hfin]; exact I5.trans e7
        · rw [hfin]; exact I6.trans e8
        · rw [hfin]; omega
        · rw [hev, hfin, harith]
          apply perm_assemble
          rw [hP1, e3] at I8
          exact I8
        · rw [hsubs]
          intro tx htx
          rcases List.mem_append.mp htx with h | h
          · exact hfillsub tx h
          · rw [e6] at I9
            exact I9 tx h
        · rw [hev]
          rw [e5, e8, e4] at I10
          exact I10
      · -- a pending future resolves
        by_cases hco : ∃ r, o = TaskOutcome.ok (some r)
        · -- confirmed receipt: emit the event, retire the nonce
          obtain ⟨r, rfl⟩ := hco
          have hres := resolve_confirm (fill s).1 i r tx ho
          have hEinv : EngineInv n0
              { (fill s).1 with pending := (fill s).1.pending.eraseIdx i } := by
            have h := resolve_inv n0 (fill s).1 i (TaskOutcome.ok (some r)) hIF
            rw [hres] at h
            exact h
          obtain ⟨I1, I2, I3, I4, I5, I6, I7, I8, I9, I10⟩ :=
            ih { (fill s).1 with pending := (fill s).1.pending.eraseIdx i } hEinv
          dsimp only at I2 I3 I4 I5 I6 I7 I8 I9 I10
          have hev : (run s ((i, TaskOutcome.ok (some r)) :: rest)).events =
              (tx.nonce, InscriptionEvent.mint r (fill s).1.sender (fill s).1.chain_id
                  (fill s).1.calldata) ::
                (run { (fill s).1 with
                       pending := (fill s).1.pending.eraseIdx i } rest).events := by
            rw [hrw, hres]
            try rfl
          have hsubs : (run s ((i, TaskOutcome.ok (some r)) :: rest)).subs =
              (fill s).2 ++ (run { (fill s).1 with
                  pending := (fill s).1.pending.eraseIdx i } rest).subs := by
            rw [hrw, hres]
            simp
          have hfin : (run s ((i, TaskOutcome.ok (some r)) :: rest)).final =
              (run { (fill s).1 with
                     pending := (fill s).1.pending.eraseIdx i } rest).final := by
            rw [hrw, hres]
            try rfl
          have harith : (run { (fill s).1 with
                pending := (fill s).1.pending.eraseIdx i } rest).final.count - s.count =
              ((run { (fill s).1 with
                  pending := (fill s).1.pending.eraseIdx i } rest).final.count -
                (fill s).1.count) + (fill s).2.length := by
            dsimp only
            omega
          dsimp only at hev hsubs hfin harith
          have hmp := (perm_cons_eraseIdx (fill s).1.pending i tx ho).map
            TypedTransaction.nonce
          simp only [List.map_cons] at hmp
          refine ⟨by rw [hfin]; exact I1, ?_, ?_, ?_, ?_, ?_, ?_, ?_, ?_, ?_⟩
          · rw [hfin]; exact I2.trans e4
          · rw [hfin]; exact I3.trans e5
          · rw [hfin]; exact I4.trans e6
          · rw [hfin]; exact I5.trans e7
          · rw [hfin]; exact I6.trans e8
          · rw [hfin]; omega
          · rw [hev, hfin, harith]
            simp only [List.map_cons, List.cons_append]
            apply perm_assemble
            have c2 := I8.cons tx.nonce
            have c5 := (c2.trans List.perm_middle.symm).trans
              (List.Perm.append_left _ hmp.symm)
            rw [← hP1, ← e3]
            exact c5
          · rw [hsubs]
            intro tx2 htx2
            rcases List.mem_append.mp htx2 with h | h
            · exact hfillsub tx2 h
            · have h2 := I9 tx2 h
              rw [e6] at h2
              exact h2
          · rw [hev]
            intro e he
            rcases List.mem_cons.mp he with h | h
            · refine ⟨r, ?_⟩
              rw [h]
              dsimp only
              rw [e5, e8, e4]
            · have h2 := I10 e h
              rw [e5, e8, e4] at h2
              exact h2
        · -- NoReceipt or error: restart the very same descriptor
          have hor : o = TaskOutcome.ok none ∨ o = TaskOutcome.err := by
            rcases o with (_ | r2) | _
            · exact Or.inl rfl
            · exact absurd ⟨r2, rfl⟩ hco
            · exact Or.inr rfl
          have hres := resolve_retry (fill s).1 i o tx ho hor
          have hEinv : EngineInv n0
              { (fill s).1 with
                pending := (fill s).1.pending.eraseIdx i ++ [tx] } := by
            have h := resolve_inv n0 (fill s).1 i o hIF
            rw [hres] at h
            exact h
          obtain ⟨I1, I2, I3, I4, I5, I6, I7, I8, I9, I10⟩ :=
            ih { (fill s).1 with
                 pending := (fill s).1.pending.eraseIdx i ++ [tx] } hEinv
          dsimp only at I2 I3 I4 I5 I6 I7 I8 I9 I10
          have hev : (run s ((i, o) :: rest)).events =
              (run { (fill s).1 with
                     pending := (fill s).1.pending.eraseIdx i ++ [tx] } rest).events := by
            rw [hrw, hres]
            try rfl
          have hsubs : (run s ((i, o) :: rest)).subs =
              (fill s).2 ++ tx :: (run { (fill s).1 with
                  pending := (fill s).1.pending.eraseIdx i ++ [tx] } rest).subs := by
            rw [hrw, hres]
            simp
          have hfin : (run s ((i, o) :: rest)).final =
              (run { (fill s).1 with
                     pending := (fill s).1.pending.eraseIdx i ++ [tx] } rest).final := by
            rw [hrw, hres]
            try rfl
          have harith : (run { (fill s).1 with
                pending := (fill s).1.pending.eraseIdx i ++ [tx] } rest).final.count -
                s.count =
              ((run { (fill s).1 with
                  pending := (fill s).1.pending.eraseIdx i ++ [tx] } rest).final.count -
                (fill s).1.count) + (fill s).2.length := by
            dsimp only
            omega
          dsimp only at hev hsubs hfin harith
          have htxmem : tx ∈ (fill s).1.pending := by
            obtain ⟨hlt, hget⟩ := List.getElem?_eq_some.mp ho
            rw [← hget]
            exact List.getElem_mem hlt
          have hbnd : n0 ≤ tx.nonce ∧ tx.nonce < n0 + s.max_transactions := by
            have hb := hIF.hmem tx htxmem
            have hc := hIF.hcount
            have hmx := hIF.hmax
            rw [e6] at hmx
            omega
          have hmp := (perm_cons_eraseIdx (fill s).1.pending i tx ho).map
            TypedTransaction.nonce
          simp only [List.map_cons] at hmp
          have hmp2 : (((fill s).1.pending.eraseIdx i ++ [tx]).map
              TypedTransaction.nonce).Perm
              ((fill s).1.pending.map TypedTransaction.nonce) := by
            simp only [List.map_append, List.map_cons, List.map_nil]
            exact (List.perm_append_singleton _ _).trans hmp.symm
          refine ⟨by rw [hfin]; exact I1, ?_, ?_, ?_, ?_, ?_, ?_, ?_, ?_, ?_⟩
          · rw [hfin]; exact I2.trans e4
          · rw [hfin]; exact I3.trans e5
          · rw [hfin]; exact I4.trans e6
          · rw [hfin]; exact I5.trans e7
          · rw [hfin]; exact I6.trans e8
          · rw [hfin]; omega
          · rw [hev, hfin, harith]
            apply perm_assemble
            have c5 := I8.trans (List.Perm.append_left _ hmp2)
            rw [← hP1, ← e3]
            exact c5
          · rw [hsubs]
            intro tx2 htx2
            rcases List.mem_append.mp htx2 with h | h
            · exact hfillsub tx2 h
            · rcases List.mem_cons.mp h with h2 | h2
              · rw [h2]; exact hbnd
              · have h3 := I9 tx2 h2
                rw [e6] at h3
                exact h3
          · rw [hev]
            intro e he
            have h2 := I10 e he
            rw [e5, e8, e4] at h2
            exact h2

/-- Resolving never changes the nonce counter (in particular, retries do
not): only the fill phase advances `highest_nonce`. -/
theorem resolve_highest (s : Inscriber) (i : Nat) (o : TaskOutcome) :
    (resolve s i o).2.1.highest_nonce = s.highest_nonce := by
  rcases ho : s.pending[i]? with _ | tx
  · simp [resolve, ho]
  · rcases o with (_ | r) | _ <;> simp [resolve, ho, Inscriber.start_transaction]

/-- Resolving never changes the sent counter. -/
theorem resolve_count (s : Inscriber) (i : Nat) (o : TaskOutcome) :
    (resolve s i o).2.1.count = s.count := by
  rcases ho : s.pending[i]? with _ | tx
  · simp [resolve, ho]
  · rcases o with (_ | r) | _ <;> simp [resolve, ho, Inscriber.start_transaction]

/-- Resolving never changes the configuration fields. -/
theorem resolve_frame (s : Inscriber) (i : Nat) (o : TaskOutcome) :
    (resolve s i o).2.1.calldata = s.calldata ∧
    (resolve s i o).2.1.sender = s.sender ∧
    (resolve s i o).2.1.max_transactions = s.max_transactions ∧
    (resolve s i o).2.1.concurrency = s.concurrency ∧
    (resolve s i o).2.1.chain_id = s.chain_id := by
  rcases ho : s.pending[i]? with _ | tx
  · simp [resolve, ho]
  · rcases o with (_ | r) | _ <;> simp [resolve, ho, Inscriber.start_transaction]

/-- Across a whole run the nonce counter never decreases. -/
theorem run_highest_mono (sched : List (Nat × TaskOutcome)) : ∀ (s : Inscriber),
    s.highest_nonce ≤ (run s sched).final.highest_nonce := by
  induction sched with
  | nil =>
    intro s
    rcases hd : s.done with _ | _
    · rw [run_nil_not_done s hd]
    · rw [run_done s [] hd]
  | cons p rest ih =>
    intro s
    obtain ⟨i, o⟩ := p
    rcases hd : s.done with _ | _
    · rw [run_cons_not_done s i o rest hd]
      have h1 : s.highest_nonce ≤ (fill s).1.highest_nonce := by
        have := (fill_spec s).2.2.1
        omega
      have h2 := resolve_highest (fill s).1 i o
      have h3 := ih (resolve (fill s).1 i o).2.1
      dsimp only
      omega
    · rw [run_done s _ hd]

/-- The stream has ended exactly when the state the run stopped in is the
terminal `Done` state. -/
theorem run_ended_iff (sched : List (Nat × TaskOutcome)) : ∀ (s : Inscriber),
    ((run s sched).ended = true ↔ (run s sched).final.done = true) := by
  induction sched with
  | nil =>
    intro s
    rcases hd : s.done with _ | _
    · rw [run_nil_not_done s hd]
      simp [hd]
    · rw [run_done s [] hd]
      simp [hd]
  | cons p rest ih =>
    intro s
    obtain ⟨i, o⟩ := p
    rcases hd : s.done with _ | _
    · rw [run_cons_not_done s i o rest hd]
      exact ih (resolve (fill s).1 i o).2.1
    · rw [run_done s _ hd]
      simp [hd]

/-- One engine transition as observed at a scheduling point: either the
fill phase runs, or one in-flight future resolves with some outcome. -/
inductive Step : Inscriber → Inscriber → Prop
  | fillS (s : Inscriber) : Step s (fill s).1
  | resolveS (s : Inscriber) (i : Nat) (o : TaskOutcome) : Step s (resolve s i o).2.1

/-- States the engine can pass through, starting from `s0`. -/
def Reachable (s0 s : Inscriber) : Prop := Relation.ReflTransGen Step s0 s

theorem step_inv (n0 : Nat) (a b : Inscriber) (hI : EngineInv n0 a) (h : Step a b) :
    EngineInv n0 b := by
  cases h with
  | fillS => exact fill_inv n0 a hI
  | resolveS i o => exact resolve_inv n0 a i o hI

theorem step_concurrency (a b : Inscriber) (h : Step a b) :
    b.concurrency = a.concurrency := by
  cases h with
  | fillS => exact (fill_spec a).2.2.2.2.2.2.1
  | resolveS i o => exact (resolve_frame a i o).2.2.2.1

/-- The invariant and the concurrency setting are maintained along every
sequence of engine transitions. -/
theorem reachable_inv (n0 : Nat) (s0 s : Inscriber) (h0 : EngineInv n0 s0)
    (h : Reachable s0 s) : EngineInv n0 s ∧ s.concurrency = s0.concurrency := by
  induction h with
  | refl => exact ⟨h0, rfl⟩
  | tail hab hbc ih =>
    exact ⟨step_inv n0 _ _ ih.1 hbc, (step_concurrency _ _ hbc).trans ih.2⟩

/-- The freshly-constructed engine state satisfies the invariant. -/
theorem init_inv (cd : Bytes) (sender : Address) (n0 N C cid : Nat) :
    EngineInv n0 (initInscriber cd sender n0 N C cid) := by
  constructor <;> simp [initInscriber]

/-! ### Claim theorems for the submission engine -/

/-- C7: for every nonce, `next_transaction` produces a descriptor whose
recipient is the sender's own address, whose value is zero, whose gas limit
is the fixed constant 22200, whose nonce is the engine's current nonce, and
whose data field is the payload; it is a total, effect-free function of
those inputs (in the source it reads `&mut self` but mutates nothing). -/
theorem next_transaction_builds_fixed_descriptor (s : Inscriber) :
    s.next_transaction =
      { «to» := s.sender, value := 0, gas := 22200,
        nonce := s.highest_nonce, data := s.calldata } := rfl

/-- C8: the builder is deterministic and idempotent — any two engine states
agreeing on the nonce, payload and recipient inputs yield identical
descriptors. -/
theorem next_transaction_idempotent (s t : Inscriber)
    (hn : s.highest_nonce = t.highest_nonce) (hp : s.calldata = t.calldata)
    (hr : s.sender = t.sender) : s.next_transaction = t.next_transaction := by
  simp [Inscriber.next_transaction, hn, hp, hr]

theorem next_transaction_idempotent_witness :
    (initInscriber [1] 2 5 3 1 9).next_transaction =
      (initInscriber [1] 2 5 7 2 8).next_transaction :=
  next_transaction_idempotent _ _ rfl rfl rfl

/-- C5: when an in-flight task resolves with `Ok(None)` (no receipt) or
`Err`, the engine emits no event, restarts exactly one submission with the
byte-identical descriptor (hence the same nonce), the descriptor re-enters
the in-flight set, the counters `count` (sentCount), `highest_nonce`
(nextNonce) and `max_transactions` (targetCount) are unchanged, and the
multiset of in-flight nonces is unchanged — only a confirmed receipt
removes a nonce. -/
theorem retry_reuses_nonce_same_descriptor (s : Inscriber) (i : Nat)
    (o : TaskOutcome) (tx : TypedTransaction) (h : s.pending[i]? = some tx)
    (ho : o = TaskOutcome.ok none ∨ o = TaskOutcome.err) :
    (resolve s i o).1 = none ∧
    (resolve s i o).2.2 = [tx] ∧
    tx ∈ (resolve s i o).2.1.pending ∧
    (resolve s i o).2.1.count = s.count ∧
    (resolve s i o).2.1.highest_nonce = s.highest_nonce ∧
    (resolve s i o).2.1.max_transactions = s.max_transactions ∧
    ((resolve s i o).2.1.pending.map TypedTransaction.nonce).Perm
      (s.pending.map TypedTransaction.nonce) := by
  rw [resolve_retry s i o tx h ho]
  refine ⟨rfl, rfl, ?_, rfl, rfl, rfl, ?_⟩
  · simp
  · have hmp := (perm_cons_eraseIdx s.pending i tx h).map TypedTransaction.nonce
    simp only [List.map_cons] at hmp
    simp only [List.map_append, List.map_cons, List.map_nil]
    exact (List.perm_append_singleton _ _).trans hmp.symm

theorem retry_reuses_nonce_same_descriptor_witness :
    (resolve ⟨[mkTx 7 [1, 2] 5], [1, 2], 7, 1, 6, 1, 1, 9⟩ 0 (TaskOutcome.ok none)).1 = none ∧
    (resolve ⟨[mkTx 7 [1, 2] 5], [1, 2], 7, 1, 6, 1, 1, 9⟩ 0 (TaskOutcome.ok none)).2.2 =
      [mkTx 7 [1, 2] 5] ∧
    mkTx 7 [1, 2] 5 ∈
      (resolve ⟨[mkTx 7 [1, 2] 5], [1, 2], 7, 1, 6, 1, 1, 9⟩ 0 (TaskOutcome.ok none)).2.1.pending ∧
    (resolve ⟨[mkTx 7 [1, 2] 5], [1, 2], 7, 1, 6, 1, 1, 9⟩ 0 (TaskOutcome.ok none)).2.1.count = 1 ∧
    (resolve ⟨[mkTx 7 [1, 2] 5], [1, 2], 7, 1, 6, 1, 1, 9⟩ 0 (TaskOutcome.ok none)).2.1.highest_nonce = 6 ∧
    (resolve ⟨[mkTx 7 [1, 2] 5], [1, 2], 7, 1, 6, 1, 1, 9⟩ 0 (TaskOutcome.ok none)).2.1.max_transactions = 1 ∧
    ((resolve ⟨[mkTx 7 [1, 2] 5], [1, 2], 7, 1, 6, 1, 1, 9⟩ 0 (TaskOutcome.ok none)).2.1.pending.map
        TypedTransaction.nonce).Perm
      ([mkTx 7 [1, 2] 5].map TypedTransaction.nonce) :=
  retry_reuses_nonce_same_descriptor ⟨[mkTx 7 [1, 2] 5], [1, 2], 7, 1, 6, 1, 1, 9⟩ 0
    (TaskOutcome.ok none) (mkTx 7 [1, 2] 5) rfl (Or.inl rfl)

/-- C6: the stream ends exactly in the terminal state — `done` holds iff
the sent count has reached the target and the in-flight set is empty; once
done, polling with any schedule yields no events, no submissions, no state
change and reports the end of the stream; and a run reports the stream
ended iff the state it stopped in is `done`. -/
theorem stream_ends_iff_done (s : Inscriber) (sched : List (Nat × TaskOutcome)) :
    (s.done = true ↔ (s.max_transactions ≤ s.count ∧ s.pending = [])) ∧
    (s.done = true → run s sched = ⟨[], [], s, true⟩) ∧
    ((run s sched).ended = true ↔ (run s sched).final.done = true) :=
  ⟨by simp [Inscriber.done, List.isEmpty_iff], run_done s sched, run_ended_iff sched s⟩

theorem stream_ends_iff_done_witness :
    ((⟨[], [1], 7, 3, 8, 3, 2, 9⟩ : Inscriber).done = true) ∧
    run (⟨[], [1], 7, 3, 8, 3, 2, 9⟩ : Inscriber) [(0, TaskOutcome.err)] =
      ⟨[], [], ⟨[], [1], 7, 3, 8, 3, 2, 9⟩, true⟩ :=
  ⟨by decide, (stream_ends_iff_done ⟨[], [1], 7, 3, 8, 3, 2, 9⟩ [(0, TaskOutcome.err)]).2.1 (by decide)⟩

/-- C4: nonces are allocated in strictly increasing order — `highest_nonce`
(the spec's nextNonce) never decreases across a run, one fill step advances
it by exactly the number of newly started submissions whose nonces are the
consecutive block starting at the old value (one increment per newly
allocated nonce), and resolving an outcome (in particular a retry after
`NoReceipt` or `Failed`) never changes it. -/
theorem nonce_allocation_monotone_and_unique (s : Inscriber) (i : Nat)
    (o : TaskOutcome) (sched : List (Nat × TaskOutcome)) :
    s.highest_nonce ≤ (run s sched).final.highest_nonce ∧
    (fill s).1.highest_nonce = s.highest_nonce + (fill s).2.length ∧
    (fill s).2.map TypedTransaction.nonce =
      List.range' s.highest_nonce (fill s).2.length ∧
    (resolve s i o).2.1.highest_nonce = s.highest_nonce :=
  ⟨run_highest_mono sched s, (fill_spec s).2.2.1, fill_subs_nonces s,
    resolve_highest s i o⟩

/-- C3: in every state the engine can reach from a fresh start — at every
scheduling point — the in-flight set holds at most `concurrency` tasks and
no two simultaneously in-flight tasks share a nonce. -/
theorem inflight_bounded_and_nonces_distinct (cd : Bytes) (sender : Address)
    (n0 N C cid : Nat) (s : Inscriber)
    (h : Reachable (initInscriber cd sender n0 N C cid) s) :
    s.pending.length ≤ C ∧ (s.pending.map TypedTransaction.nonce).Nodup := by
  obtain ⟨hI, hc⟩ := reachable_inv n0 _ s (init_inv cd sender n0 N C cid) h
  refine ⟨?_, hI.hnodup⟩
  have hlen := hI.hlen
  rw [hc] at hlen
  simpa [initInscriber] using hlen

theorem inflight_bounded_and_nonces_distinct_witness :
    (fill (initInscriber [1] 7 5 3 2 9)).1.pending.length ≤ 2 ∧
    ((fill (initInscriber [1] 7 5 3 2 9)).1.pending.map TypedTransaction.nonce).Nodup :=
  inflight_bounded_and_nonces_distinct [1] 7 5 3 2 9 _
    (Relation.ReflTransGen.tail Relation.ReflTransGen.refl (Step.fillS _))

/-- C2: in any run from a fresh start that reaches the terminal state
(i.e. in which every allocated nonce eventually confirmed), exactly
`N = targetCount` events are emitted, their (ghost) nonces are pairwise
distinct and lie in `[n0, n0 + N)`, and every submission attempt of the
whole run used a nonce in `[n0, n0 + N)`. -/
theorem engine_emits_target_count_events (cd : Bytes) (sender : Address)
    (n0 N C cid : Nat) (sched : List (Nat × TaskOutcome))
    (hdone : (run (initInscriber cd sender n0 N C cid) sched).final.done = true) :
    (run (initInscriber cd sender n0 N C cid) sched).events.length = N ∧
    ((run (initInscriber cd sender n0 N C cid) sched).events.map Prod.fst).Nodup ∧
    (∀ p ∈ (run (initInscriber cd sender n0 N C cid) sched).events.map Prod.fst,
      n0 ≤ p ∧ p < n0 + N) ∧
    (∀ tx ∈ (run (initInscriber cd sender n0 N C cid) sched).subs,
      n0 ≤ tx.nonce ∧ tx.nonce < n0 + N) := by
  obtain ⟨I1, I2, I3, I4, I5, I6, I7, I8, I9, I10⟩ :=
    run_spec n0 sched (initInscriber cd sender n0 N C cid)
      (init_inv cd sender n0 N C cid)
  simp only [Inscriber.done, Bool.and_eq_true, decide_eq_true_eq,
    List.isEmpty_iff] at hdone
  obtain ⟨hcnt, hpend⟩ := hdone
  have hmaxN : (run (initInscriber cd sender n0 N C cid) sched).final.max_transactions = N := by
    rw [I4]; rfl
  have hcount : (run (initInscriber cd sender n0 N C cid) sched).final.count = N := by
    have h1 := I1.hmax
    omega
  have hip : (initInscriber cd sender n0 N C cid).pending = [] := rfl
  have hic : (initInscriber cd sender n0 N C cid).count = 0 := rfl
  have hih : (initInscriber cd sender n0 N C cid).highest_nonce = n0 := rfl
  rw [hip, hic, hih, hcount, hpend] at I8
  simp only [Nat.sub_zero, List.map_nil, List.append_nil] at I8
  refine ⟨?_, ?_, ?_, ?_⟩
  · have hl := I8.length_eq
    simpa using hl
  · exact (I8.symm).nodup (List.nodup_range' _ _)
  · intro p hp
    exact List.mem_range'_1.mp (I8.mem_iff.mp hp)
  · intro tx htx
    have hb := I9 tx htx
    simpa [initInscriber] using hb

theorem engine_emits_target_count_events_witness :
    ((run (initInscriber [1] 7 5 2 2 9)
        [(0, TaskOutcome.ok (some ⟨1, none⟩)),
         (0, TaskOutcome.ok (some ⟨2, some 1⟩))]).final.done = true) ∧
    ((run (initInscriber [1] 7 5 2 2 9)
        [(0, TaskOutcome.ok (some ⟨1, none⟩)),
         (0, TaskOutcome.ok (some ⟨2, some 1⟩))]).events.length = 2 ∧
     ((run (initInscriber [1] 7 5 2 2 9)
        [(0, TaskOutcome.ok (some ⟨1, none⟩)),
         (0, TaskOutcome.ok (some ⟨2, some 1⟩))]).events.map Prod.fst).Nodup ∧
     (∀ p ∈ (run (initInscriber [1] 7 5 2 2 9)
        [(0, TaskOutcome.ok (some ⟨1, none⟩)),
         (0, TaskOutcome.ok (some ⟨2, some 1⟩))]).events.map Prod.fst,
        5 ≤ p ∧ p < 5 + 2) ∧
     (∀ tx ∈ (run (initInscriber [1] 7 5 2 2 9)
        [(0, TaskOutcome.ok (some ⟨1, none⟩)),
         (0, TaskOutcome.ok (some ⟨2, some 1⟩))]).subs,
        5 ≤ tx.nonce ∧ tx.nonce < 5 + 2)) :=
  ⟨by decide, engine_emits_target_count_events [1] 7 5 2 2 9 _ (by decide)⟩

/-- C1 (counterexample): the code's `InscriptionEvent::Mint` carries no
nonce. In a run whose task for nonce 5 confirms and a run whose task for
nonce 6 confirms (same receipt), the emitted events are identical values
even though the confirming nonces differ, so a Completion Event does not
carry (and cannot determine) the nonce. -/
theorem inscription_event_no_nonce_field :
    ((run (initInscriber [1, 2] 7 5 2 2 9)
        [(0, TaskOutcome.ok (some ⟨77, some 3⟩))]).events.map Prod.fst ≠
      (run (initInscriber [1, 2] 7 5 2 2 9)
        [(1, TaskOutcome.ok (some ⟨77, some 3⟩))]).events.map Prod.fst) ∧
    ((run (initInscriber [1, 2] 7 5 2 2 9)
        [(0, TaskOutcome.ok (some ⟨77, some 3⟩))]).events.map Prod.snd =
      (run (initInscriber [1, 2] 7 5 2 2 9)
        [(1, TaskOutcome.ok (some ⟨77, some 3⟩))]).events.map Prod.snd) := by
  decide

/-- C1 (amended): every Completion Event the engine emits carries exactly
the fields `{receipt, senderAddress, chainId, payload}` — with the run's
sender, chain id and payload — but no nonce field; the nonces whose
confirmations produced the events are pairwise distinct (never two events
for one nonce); and whenever an in-flight task confirms with a receipt,
exactly one event is emitted at that moment (never zero). -/
theorem inscription_event_fields_and_uniqueness (cd : Bytes) (sender : Address)
    (n0 N C cid : Nat) (sched : List (Nat × TaskOutcome)) :
    (∀ e ∈ (run (initInscriber cd sender n0 N C cid) sched).events,
      ∃ r, e.2 = InscriptionEvent.mint r sender cid cd) ∧
    ((run (initInscriber cd sender n0 N C cid) sched).events.map Prod.fst).Nodup ∧
    (∀ (s : Inscriber) (i : Nat) (r : TransactionReceipt) (tx : TypedTransaction),
      s.pending[i]? = some tx →
      (resolve s i (TaskOutcome.ok (some r))).1 =
        some (tx.nonce, InscriptionEvent.mint r s.sender s.chain_id s.calldata)) := by
  obtain ⟨I1, I2, I3, I4, I5, I6, I7, I8, I9, I10⟩ :=
    run_spec n0 sched (initInscriber cd sender n0 N C cid)
      (init_inv cd sender n0 N C cid)
  refine ⟨?_, ?_, ?_⟩
  · intro e he
    have hb := I10 e he
    simpa [initInscriber] using hb
  · have hip : (initInscriber cd sender n0 N C cid).pending = [] := rfl
    have hic : (initInscriber cd sender n0 N C cid).count = 0 := rfl
    have hih : (initInscriber cd sender n0 N C cid).highest_nonce = n0 := rfl
    rw [hip, hic, hih] at I8
    simp only [Nat.sub_zero, List.map_nil, List.append_nil] at I8
    have hL := I8.symm.nodup (List.nodup_range' _ _)
    exact (List.nodup_append.mp hL).1
  · intro s i r tx h
    rw [resolve_confirm s i r tx h]

theorem inscription_event_fields_and_uniqueness_witness :
    (resolve ⟨[mkTx 7 [1] 5], [1], 7, 1, 6, 1, 1, 9⟩ 0
        (TaskOutcome.ok (some ⟨3, some 2⟩))).1 =
      some (5, InscriptionEvent.mint ⟨3, some 2⟩ 7 9 [1]) :=
  (inscription_event_fields_and_uniqueness [1] 7 5 1 1 9 []).2.2
    ⟨[mkTx 7 [1] 5], [1], 7, 1, 6, 1, 1, 9⟩ 0 ⟨3, some 2⟩ (mkTx 7 [1] 5) rfl

/-! ## Part 2: inscription calldata and serde serialization
    (`src/lib.rs`, `src/protocol.rs`)

Rust `String`s are modelled as Lean `String`s; `Vec<u8>` byte buffers as
`List Nat`; `u64`/`i64` as `Nat`/`Int` with the machine ranges made
explicit where the code depends on them. JSON documents are modelled by an
explicit `Json` value type; `serde_json::to_writer` is the composition of
serialization to `Json` and rendering `Json` to text. -/

/-- Digit characters `0-9a-f` as produced by decimal `Display` and by
lowercase hex formatting. -/
def hexDigitChar (d : Nat) : Char :=
  match d with
  | 0 => '0' | 1 => '1' | 2 => '2' | 3 => '3' | 4 => '4'
  | 5 => '5' | 6 => '6' | 7 => '7' | 8 => '8' | 9 => '9'
  | 10 => 'a' | 11 => 'b' | 12 => 'c' | 13 => 'd' | 14 => 'e' | 15 => 'f'
  | _ => '*'

/-- The numeric value of a digit character in base `b` (accepting the
upper- and lowercase hex letters, as Rust's `from_str_radix` machinery
does). -/
def digitValB (b : Nat) (c : Char) : Option Nat :=
  let v : Option Nat :=
    if 48 ≤ c.toNat ∧ c.toNat ≤ 57 then some (c.toNat - 48)
    else if 97 ≤ c.toNat ∧ c.toNat ≤ 102 then some (c.toNat - 87)
    else if 65 ≤ c.toNat ∧ c.toNat ≤ 70 then some (c.toNat - 55)
    else none
  match v with
  | some d => if d < b then some d else none
  | none => none

/-- Left-to-right accumulation of digit values (most significant first). -/
def parseDigitsAux (b : Nat) : List Char → Nat → Option Nat
  | [], acc => some acc
  | c :: cs, acc =>
    match digitValB b c with
    | some d => parseDigitsAux b cs (acc * b + d)
    | none => none

/-- Parse a non-empty all-digit string in base `b`. -/
def parseDigits (b : Nat) (cs : List Char) : Option Nat :=
  if cs.isEmpty then none else parseDigitsAux b cs 0

/-- The value of a most-significant-first digit list. -/
def digitsVal (b : Nat) : List Nat → Nat
  | [] => 0
  | d :: ds => d * b ^ ds.length + digitsVal b ds

/-- Little-endian base-`b` digits, computed with explicit fuel (the fuel
`n` always suffices since the argument at least halves each step); agrees
with Mathlib's `Nat.digits` — see `digitsLE_eq_digits`. -/
def digitsLEAux (b : Nat) : Nat → Nat → List Nat
  | _, 0 => []
  | 0, _ + 1 => []
  | fuel + 1, n + 1 => (n + 1) % b :: digitsLEAux b fuel ((n + 1) / b)

/-- Little-endian base-`b` digits of `n`. -/
def digitsLE (b n : Nat) : List Nat := digitsLEAux b n n

theorem digitsLEAux_eq (b : Nat) (hb : 1 < b) :
    ∀ (fuel n : Nat), n ≤ fuel → digitsLEAux b fuel n = Nat.digits b n
  | fuel, 0, _ => by cases fuel <;> simp [digitsLEAux]
  | fuel + 1, n + 1, h => by
    rw [digitsLEAux, Nat.digits_def' hb (Nat.succ_pos n)]
    congr 1
    have hlt : (n + 1) / b < n + 1 := Nat.div_lt_self (by omega) hb
    exact digitsLEAux_eq b hb fuel ((n + 1) / b) (by omega)

theorem digitsLE_eq_digits (b n : Nat) (hb : 1 < b) : digitsLE b n = Nat.digits b n :=
  digitsLEAux_eq b hb n n (le_refl n)

/-- Decimal rendering of a `u64` as by Rust's `Display`: `"0"` for zero,
otherwise the decimal digits most significant first with no leading
zeros. -/
def natToString (n : Nat) : String :=
  if n = 0 then "0" else ⟨(digitsLE 10 n).reverse.map hexDigitChar⟩

/-- `u64::from_str` (as used by serde's `DisplayFromStr`): digits only,
value must fit in 64 bits. -/
def parseU64 (s : String) : Except String Nat :=
  match parseDigits 10 s.data with
  | none => Except.error "invalid digit found in string"
  | some n => if n < 2 ^ 64 then Except.ok n else Except.error "number too large to fit in target type"

theorem digitValB_hexDigitChar (b d : Nat) (hd : d < 16) (hb : d < b) :
    digitValB b (hexDigitChar d) = some d := by
  interval_cases d <;> simp [hexDigitChar, digitValB] <;> omega

theorem parseDigitsAux_spec (b : Nat) (hb : b ≤ 16) :
    ∀ (ds : List Nat) (acc : Nat), (∀ d ∈ ds, d < b) →
    parseDigitsAux b (ds.map hexDigitChar) acc = some (acc * b ^ ds.length + digitsVal b ds)
  | [], acc, _ => by simp [parseDigitsAux, digitsVal]
  | d :: ds, acc, h => by
    have hd : d < b := h d (by simp)
    rw [List.map_cons, parseDigitsAux, digitValB_hexDigitChar b d (by omega) hd]
    show parseDigitsAux b (List.map hexDigitChar ds) (acc * b + d) =
      some (acc * b ^ (d :: ds).length + digitsVal b (d :: ds))
    rw [parseDigitsAux_spec b hb ds (acc * b + d) (fun x hx => h x (by simp [hx]))]
    congr 1
    simp only [List.length_cons, digitsVal]
    ring

theorem digitsVal_append_singleton (b : Nat) :
    ∀ (ds : List Nat) (d : Nat), digitsVal b (ds ++ [d]) = digitsVal b ds * b + d
  | [], d => by simp [digitsVal]
  | x :: ds, d => by
    show x * b ^ (ds ++ [d]).length + digitsVal b (ds ++ [d]) =
      (x * b ^ ds.length + digitsVal b ds) * b + d
    rw [digitsVal_append_singleton b ds d, List.length_append]
    simp only [List.length_cons, List.length_nil]
    ring

/-- The value of the reversed little-endian digit list is the number
itself. -/
theorem digitsVal_reverse_digits (b n : Nat) (hb : 1 < b) :
    digitsVal b ((Nat.digits b n).reverse) = n := by
  conv_rhs => rw [← Nat.ofDigits_digits b n]
  generalize (Nat.digits b n) = l
  induction l with
  | nil => simp [digitsVal, Nat.ofDigits]
  | cons d ds ih =>
    rw [List.reverse_cons, digitsVal_append_singleton, ih, Nat.ofDigits_cons]
    ring

/-- Parsing inverts decimal rendering for every `u64` value. -/
theorem parseU64_natToString (n : Nat) (h : n < 2 ^ 64) :
    parseU64 (natToString n) = Except.ok n := by
  by_cases h0 : n = 0
  · subst h0; rfl
  · have hdd : digitsLE 10 n = Nat.digits 10 n := digitsLE_eq_digits 10 n (by omega)
    have hne : Nat.digits 10 n ≠ [] := Nat.digits_ne_nil_iff_ne_zero.mpr h0
    have hlt : ∀ d ∈ (Nat.digits 10 n).reverse, d < 10 := by
      intro d hd
      exact Nat.digits_lt_base (by omega) (List.mem_reverse.mp hd)
    have hnonempty : ((Nat.digits 10 n).reverse.map hexDigitChar).isEmpty = false := by
      simp [List.isEmpty_iff, hne]
    rw [parseU64, natToString, if_neg h0, hdd]
    show (match parseDigits 10 ((Nat.digits 10 n).reverse.map hexDigitChar) with
      | none => Except.error "invalid digit found in string"
      | some n => if n < 2 ^ 64 then Except.ok n
          else Except.error "number too large to fit in target type") = Except.ok n
    rw [parseDigits, if_neg (by simpa [List.isEmpty_iff] using hne),
      parseDigitsAux_spec 10 (by omega) _ 0 hlt, digitsVal_reverse_digits 10 n (by omega)]
    simp only [Nat.zero_mul, Nat.zero_add]
    show (if n < 2 ^ 64 then Except.ok n
      else Except.error "number too large to fit in target type") = Except.ok n
    rw [if_pos h]

/-- UTF-8 encoding of one Unicode scalar value (1-4 bytes). -/
def utf8EncodeChar (c : Nat) : List Nat :=
  if c < 0x80 then [c]
  else if c < 0x800 then [0xC0 + c / 64, 0x80 + c % 64]
  else if c < 0x10000 then
    [0xE0 + c / 4096, 0x80 + (c / 64) % 64, 0x80 + c % 64]
  else
    [0xF0 + c / 0x40000, 0x80 + (c / 4096) % 64, 0x80 + (c / 64) % 64, 0x80 + c % 64]

/-- UTF-8 encoding of a character sequence (the byte content of a Rust
`String`). -/
def utf8Encode : List Char → List Nat
  | [] => []
  | c :: cs => utf8EncodeChar c.toNat ++ utf8Encode cs

/-- Tail of a 2-byte UTF-8 sequence with lead byte `b`. -/
def utf8Dec2 (b : Nat) : List Nat → Option (Nat × List Nat)
  | b1 :: bs =>
    if 0x80 ≤ b1 ∧ b1 < 0xC0 then some ((b - 0xC0) * 64 + (b1 - 0x80), bs) else none
  | [] => none

/-- Tail of a 3-byte UTF-8 sequence with lead byte `b` (rejecting overlong
encodings and surrogates, as Rust's validation does). -/
def utf8Dec3 (b : Nat) : List Nat → Option (Nat × List Nat)
  | b1 :: b2 :: bs =>
    if (0x80 ≤ b1 ∧ b1 < 0xC0) ∧ (0x80 ≤ b2 ∧ b2 < 0xC0) then
      if 0x800 ≤ (b - 0xE0) * 4096 + (b1 - 0x80) * 64 + (b2 - 0x80) ∧
          ¬(0xD800 ≤ (b - 0xE0) * 4096 + (b1 - 0x80) * 64 + (b2 - 0x80) ∧
            (b - 0xE0) * 4096 + (b1 - 0x80) * 64 + (b2 - 0x80) < 0xE000) then
        some ((b - 0xE0) * 4096 + (b1 - 0x80) * 64 + (b2 - 0x80), bs)
      else none
    else none
  | _ => none

/-- Tail of a 4-byte UTF-8 sequence with lead byte `b` (rejecting overlong
encodings and values above `U+10FFFF`). -/
def utf8Dec4 (b : Nat) : List Nat → Option (Nat × List Nat)
  | b1 :: b2 :: b3 :: bs =>
    if (0x80 ≤ b1 ∧ b1 < 0xC0) ∧ (0x80 ≤ b2 ∧ b2 < 0xC0) ∧ (0x80 ≤ b3 ∧ b3 < 0xC0) then
      if 0x10000 ≤ (b - 0xF0) * 0x40000 + (b1 - 0x80) * 4096 +
            (b2 - 0x80) * 64 + (b3 - 0x80) ∧
          (b - 0xF0) * 0x40000 + (b1 - 0x80) * 4096 +
            (b2 - 0x80) * 64 + (b3 - 0x80) < 0x110000 then
        some ((b - 0xF0) * 0x40000 + (b1 - 0x80) * 4096 +
          (b2 - 0x80) * 64 + (b3 - 0x80), bs)
      else none
    else none
  | _ => none

/-- Decode one UTF-8 scalar from the front of the byte list, returning it
with the remaining bytes; `none` on any malformed sequence (stray
continuation byte, overlong form, surrogate, out-of-range value). -/
def utf8DecodeChar : List Nat → Option (Nat × List Nat)
  | [] => none
  | b :: bs =>
    if b < 0x80 then some (b, bs)
    else if b < 0xC2 then none
    else if b < 0xE0 then utf8Dec2 b bs
    else if b < 0xF0 then utf8Dec3 b bs
    else if b < 0xF5 then utf8Dec4 b bs
    else none

/-- Strict UTF-8 decoding loop; the fuel bounds the number of decoded
characters (each iteration consumes at least one byte, so a fuel equal to
the byte count computes the full decoding — see `utf8Decode`). -/
def utf8DecodeLoop : Nat → List Nat → Option (List Nat)
  | 0, bs => if bs.isEmpty then some [] else none
  | fuel + 1, bs =>
    if bs.isEmpty then some []
    else
      match utf8DecodeChar bs with
      | some (c, rest) => (utf8DecodeLoop fuel rest).map (c :: ·)
      | none => none

/-- Strict UTF-8 decoding as performed by Rust's `String::from_utf8`:
returns the decoded scalar values, or `none` for invalid UTF-8. -/
def utf8Decode (l : List Nat) : Option (List Nat) := utf8DecodeLoop l.length l

theorem utf8Encode_append (l1 l2 : List Char) :
    utf8Encode (l1 ++ l2) = utf8Encode l1 ++ utf8Encode l2 := by
  induction l1 with
  | nil => rfl
  | cons c cs ih => simp [utf8Encode, ih]

theorem utf8EncodeChar_ne_nil (c : Nat) : utf8EncodeChar c ≠ [] := by
  by_cases h1 : c < 0x80 <;> by_cases h2 : c < 0x800 <;> by_cases h3 : c < 0x10000 <;>
    simp [utf8EncodeChar, h1, h2, h3]

theorem utf8EncodeChar_length_le (c : Nat) : (utf8EncodeChar c).length ≤ 4 := by
  by_cases h1 : c < 0x80 <;> by_cases h2 : c < 0x800 <;> by_cases h3 : c < 0x10000 <;>
    simp [utf8EncodeChar, h1, h2, h3]

/-- Decoding one character from the encoding of a valid scalar value
followed by anything yields exactly that scalar and the rest. -/
theorem utf8DecodeChar_encodeChar (c : Nat) (hlt : c < 0x110000)
    (hs : ¬(0xD800 ≤ c ∧ c < 0xE000)) (bs : List Nat) :
    utf8DecodeChar (utf8EncodeChar c ++ bs) = some (c, bs) := by
  by_cases h1 : c < 0x80
  · simp [utf8EncodeChar, utf8DecodeChar, h1]
  · by_cases h2 : c < 0x800
    · have ha : ¬(0xC0 + c / 64 < 0x80) := by omega
      have hb : ¬(0xC0 + c / 64 < 0xC2) := by omega
      have hc : 0xC0 + c / 64 < 0xE0 := by omega
      have hd : 0x80 ≤ 0x80 + c % 64 ∧ 0x80 + c % 64 < 0xC0 := by omega
      have hv : (0xC0 + c / 64 - 0xC0) * 64 + (0x80 + c % 64 - 0x80) = c := by omega
      simp only [utf8EncodeChar, if_neg h1, if_pos h2, List.cons_append, List.nil_append,
        utf8DecodeChar, if_neg ha, if_neg hb, if_pos hc, utf8Dec2, if_pos hd, hv]
    · by_cases h3 : c < 0x10000
      · have ha : ¬(0xE0 + c / 4096 < 0x80) := by omega
        have hb : ¬(0xE0 + c / 4096 < 0xC2) := by omega
        have hc : ¬(0xE0 + c / 4096 < 0xE0) := by omega
        have hd : 0xE0 + c / 4096 < 0xF0 := by omega
        have he : (0x80 ≤ 0x80 + (c / 64) % 64 ∧ 0x80 + (c / 64) % 64 < 0xC0) ∧
            (0x80 ≤ 0x80 + c % 64 ∧ 0x80 + c % 64 < 0xC0) := by omega
        have hv : (0xE0 + c / 4096 - 0xE0) * 4096 + (0x80 + (c / 64) % 64 - 0x80) * 64 +
            (0x80 + c % 64 - 0x80) = c := by omega
        have hr : 0x800 ≤ (0xE0 + c / 4096 - 0xE0) * 4096 +
              (0x80 + (c / 64) % 64 - 0x80) * 64 + (0x80 + c % 64 - 0x80) ∧
            ¬(0xD800 ≤ (0xE0 + c / 4096 - 0xE0) * 4096 +
                (0x80 + (c / 64) % 64 - 0x80) * 64 + (0x80 + c % 64 - 0x80) ∧
              (0xE0 + c / 4096 - 0xE0) * 4096 +
                (0x80 + (c / 64) % 64 - 0x80) * 64 + (0x80 + c % 64 - 0x80) < 0xE000) := by
          rw [hv]
          exact ⟨by omega, hs⟩
        have hr2 : 0x800 ≤ c ∧ ¬(0xD800 ≤ c ∧ c < 0xE000) := ⟨by omega, hs⟩
        simp only [utf8EncodeChar, if_neg h1, if_neg h2, if_pos h3, List.cons_append,
          List.nil_append, utf8DecodeChar, if_neg ha, if_neg hb, if_neg hc, if_pos hd,
          utf8Dec3, if_pos he, if_pos hr, hv]
        exact if_pos hr2
      · have ha : ¬(0xF0 + c / 0x40000 < 0x80) := by omega
        have hb : ¬(0xF0 + c / 0x40000 < 0xC2) := by omega
        have hc : ¬(0xF0 + c / 0x40000 < 0xE0) := by omega
        have hd : ¬(0xF0 + c / 0x40000 < 0xF0) := by omega
        have he : 0xF0 + c / 0x40000 < 0xF5 := by omega
        have hf : (0x80 ≤ 0x80 + (c / 4096) % 64 ∧ 0x80 + (c / 4096) % 64 < 0xC0) ∧
            (0x80 ≤ 0x80 + (c / 64) % 64 ∧ 0x80 + (c / 64) % 64 < 0xC0) ∧
            (0x80 ≤ 0x80 + c % 64 ∧ 0x80 + c % 64 < 0xC0) := by omega
        have hv : (0xF0 + c / 0x40000 - 0xF0) * 0x40000 +
            (0x80 + (c / 4096) % 64 - 0x80) * 4096 +
            (0x80 + (c / 64) % 64 - 0x80) * 64 + (0x80 + c % 64 - 0x80) = c := by omega
        have hr : 0x10000 ≤ (0xF0 + c / 0x40000 - 0xF0) * 0x40000 +
              (0x80 + (c / 4096) % 64 - 0x80) * 4096 +
              (0x80 + (c / 64) % 64 - 0x80) * 64 + (0x80 + c % 64 - 0x80) ∧
            (0xF0 + c / 0x40000 - 0xF0) * 0x40000 +
              (0x80 + (c / 4096) % 64 - 0x80) * 4096 +
              (0x80 + (c / 64) % 64 - 0x80) * 64 + (0x80 + c % 64 - 0x80) < 0x110000 := by
          rw [hv]
          exact ⟨by omega, hlt⟩
        have hr2 : 0x10000 ≤ c ∧ c < 0x110000 := ⟨by omega, hlt⟩
        simp only [utf8EncodeChar, if_neg h1, if_neg h2, if_neg h3, List.cons_append,
          List.nil_append, utf8DecodeChar, if_neg ha, if_neg hb, if_neg hc, if_neg hd,
          if_pos he, utf8Dec4, if_pos hf, if_pos hr, hv]
        exact if_pos hr2

/-- With enough fuel, the decoding loop inverts the encoder. -/
theorem utf8DecodeLoop_encode (cs : List Char) : ∀ (fuel : Nat), cs.length ≤ fuel →
    utf8DecodeLoop fuel (utf8Encode cs) = some (cs.map Char.toNat) := by
  induction cs with
  | nil =>
    intro fuel _
    cases fuel <;> rfl
  | cons c cs ih =>
    intro fuel hf
    have hv : c.toNat < 0xd800 ∨ (0xdfff < c.toNat ∧ c.toNat < 0x110000) := c.valid
    cases fuel with
    | zero => simp at hf
    | succ fuel =>
      have hne : (utf8Encode (c :: cs)).isEmpty = false := by
        rw [utf8Encode]
        rcases he : utf8EncodeChar c.toNat with _ | ⟨b, bs⟩
        · exact absurd he (utf8EncodeChar_ne_nil c.toNat)
        · rfl
      rw [utf8DecodeLoop, if_neg (by simp [hne])]
      rw [show utf8Encode (c :: cs) = utf8EncodeChar c.toNat ++ utf8Encode cs from rfl]
      rw [utf8DecodeChar_encodeChar c.toNat (by omega) (by omega) (utf8Encode cs)]
      show (utf8DecodeLoop fuel (utf8Encode cs)).map (c.toNat :: ·) =
        some (List.map Char.toNat (c :: cs))
      rw [ih fuel (by simpa using hf)]
      rfl

/-- UTF-8 round trip: decoding the encoding of any character sequence
succeeds and returns exactly the scalar values. This relies on the
invariant of Lean `Char` (and Rust `char`): every character is a Unicode
scalar value — below `0x110000` and not a surrogate. -/
theorem utf8Decode_utf8Encode (cs : List Char) :
    utf8Decode (utf8Encode cs) = some (cs.map Char.toNat) := by
  rw [utf8Decode]
  apply utf8DecodeLoop_encode
  induction cs with
  | nil => simp [utf8Encode]
  | cons c cs ih =>
    rw [utf8Encode, List.length_append, List.length_cons]
    have h1 : 1 ≤ (utf8EncodeChar c.toNat).length := by
      rcases he : utf8EncodeChar c.toNat with _ | ⟨b, bs⟩
      · exact absurd he (utf8EncodeChar_ne_nil c.toNat)
      · simp
    omega

/-- JSON documents (the serde_json data model as used by this crate). -/
inductive Json where
  | null : Json
  | str : String → Json
  | num : Int → Json
  | arr : List Json → Json
  | obj : List (String × Json) → Json

/-- serde_json string escaping: `"` and `\` are escaped, the control
characters BS/TAB/LF/FF/CR get their short forms, other control characters
become `\u00XX`; everything else is emitted verbatim. -/
def escapeChar (c : Char) : List Char :=
  if c = '"' then ['\\', '"']
  else if c = '\\' then ['\\', '\\']
  else if c.toNat = 8 then ['\\', 'b']
  else if c.toNat = 9 then ['\\', 't']
  else if c.toNat = 10 then ['\\', 'n']
  else if c.toNat = 12 then ['\\', 'f']
  else if c.toNat = 13 then ['\\', 'r']
  else if c.toNat < 32 then
    ['\\', 'u', '0', '0', hexDigitChar (c.toNat / 16), hexDigitChar (c.toNat % 16)]
  else [c]

/-- A JSON string literal: quoted and escaped. -/
def renderString (s : String) : String :=
  ⟨'"' :: s.data.foldr (fun c acc => escapeChar c ++ acc) ['"']⟩

/-- Decimal rendering of an `i64`. -/
def intToString (n : Int) : String :=
  if n < 0 then "-" ++ natToString n.natAbs else natToString n.toNat

mutual

/-- Compact JSON text rendering, as `serde_json::to_writer` produces. -/
def jsonRender : Json → String
  | .null => "null"
  | .str s => renderString s
  | .num n => intToString n
  | .arr l => "[" ++ jsonRenderArr l ++ "]"
  | .obj l => "\x7b" ++ jsonRenderObj l ++ "\x7d"

/-- Comma-separated rendering of array elements. -/
def jsonRenderArr : List Json → String
  | [] => ""
  | [j] => jsonRender j
  | j :: rest => jsonRender j ++ "," ++ jsonRenderArr rest

/-- Comma-separated rendering of object members. -/
def jsonRenderObj : List (String × Json) → String
  | [] => ""
  | [(k, v)] => renderString k ++ ":" ++ jsonRender v
  | (k, v) :: rest => renderString k ++ ":" ++ jsonRender v ++ "," ++ jsonRenderObj rest

end

/-- The known protocols of `src/protocol.rs` (`enum NamedProtocol`). -/
inductive NamedProtocol where
  | Bsc_20 | Asc_20 | Prc_20 | Zrc_20 | Erc_20 | Grc_20 | Fair_20 | Oprc_20
  | Osc_20 | Brc_20 | Frc_20 | Nirc_20 | Zsc_20 | Vims_20 | Era_20 | Bnb_48
  | Gno_20 | Terc_20 | Nrc_20 | Bep_20 | Bnb_20 | Cls_20 | Base_20 | Erc_cash
  | Bnbs_20 | Ftm_20
deriving DecidableEq, Repr

/-- The kebab-case name of a known protocol (strum `serialize_all =
"kebab-case"`, also used by serde's `rename_all`). -/
def NamedProtocol.as_str : NamedProtocol → String
  | .Bsc_20 => "bsc-20" | .Asc_20 => "asc-20" | .Prc_20 => "prc-20"
  | .Zrc_20 => "zrc-20" | .Erc_20 => "erc-20" | .Grc_20 => "grc-20"
  | .Fair_20 => "fair-20" | .Oprc_20 => "oprc-20" | .Osc_20 => "osc-20"
  | .Brc_20 => "brc-20" | .Frc_20 => "frc-20" | .Nirc_20 => "nirc-20"
  | .Zsc_20 => "zsc-20" | .Vims_20 => "vims-20" | .Era_20 => "era-20"
  | .Bnb_48 => "bnb-48" | .Gno_20 => "gno-20" | .Terc_20 => "terc-20"
  | .Nrc_20 => "nrc-20" | .Bep_20 => "bep-20" | .Bnb_20 => "bnb-20"
  | .Cls_20 => "cls-20" | .Base_20 => "base-20" | .Erc_cash => "erc-cash"
  | .Bnbs_20 => "bnbs-20" | .Ftm_20 => "ftm-20"

/-- `FromStr` for `NamedProtocol` (strum `EnumString`, case-sensitive
kebab-case names); `none` models the strum error. -/
def NamedProtocol.from_str (s : String) : Option NamedProtocol :=
  if s = "bsc-20" then some .Bsc_20 else if s = "asc-20" then some .Asc_20
  else if s = "prc-20" then some .Prc_20 else if s = "zrc-20" then some .Zrc_20
  else if s = "erc-20" then some .Erc_20 else if s = "grc-20" then some .Grc_20
  else if s = "fair-20" then some .Fair_20 else if s = "oprc-20" then some .Oprc_20
  else if s = "osc-20" then some .Osc_20 else if s = "brc-20" then some .Brc_20
  else if s = "frc-20" then some .Frc_20 else if s = "nirc-20" then some .Nirc_20
  else if s = "zsc-20" then some .Zsc_20 else if s = "vims-20" then some .Vims_20
  else if s = "era-20" then some .Era_20 else if s = "bnb-48" then some .Bnb_48
  else if s = "gno-20" then some .Gno_20 else if s = "terc-20" then some .Terc_20
  else if s = "nrc-20" then some .Nrc_20 else if s = "bep-20" then some .Bep_20
  else if s = "bnb-20" then some .Bnb_20 else if s = "cls-20" then some .Cls_20
  else if s = "base-20" then some .Base_20 else if s = "erc-cash" then some .Erc_cash
  else if s = "bnbs-20" then some .Bnbs_20 else if s = "ftm-20" then some .Ftm_20
  else none

/-- `enum ProtocolKind`: a known protocol or any other protocol string. -/
inductive ProtocolKind where
  | Named : NamedProtocol → ProtocolKind
  | Other : String → ProtocolKind
deriving DecidableEq, Repr

/-- `struct Protocol(ProtocolKind)`, the newtype wrapper. -/
structure Protocol where
  kind : ProtocolKind
deriving DecidableEq, Repr

/-- Serde serialization of `ProtocolKind` (untagged: both variants
serialize as a bare JSON string). -/
def serializeProtocolKind : ProtocolKind → Json
  | .Named k => .str k.as_str
  | .Other s => .str s

/-- Serde deserialization of the untagged `ProtocolKind`: the variants are
tried in declaration order, `Named` first, then `Other` (which accepts any
string). -/
def deserializeProtocolKind : Json → Except String ProtocolKind
  | .str s =>
    match NamedProtocol.from_str s with
    | some k => .ok (.Named k)
    | none => .ok (.Other s)
  | _ => .error "data did not match any variant of untagged enum ProtocolKind"

/-- `Protocol` is a newtype, serialized as its inner value. -/
def serializeProtocol (p : Protocol) : Json := serializeProtocolKind p.kind

def deserializeProtocol (j : Json) : Except String Protocol :=
  (deserializeProtocolKind j).map Protocol.mk

/-- A protocol value is in normal form when an `Other` string does not
collide with a known protocol's name (such values are exactly the ones
`Protocol::from(&str)` can produce). -/
def protocolNormalized (p : Protocol) : Bool :=
  match p.kind with
  | .Named _ => true
  | .Other s => (NamedProtocol.from_str s).isNone

/-- `enum Op` from `src/lib.rs`. -/
inductive Op where
  | Deploy | Mint | Transfer
deriving DecidableEq, Repr

/-- `Op::is_deploy`. -/
def Op.is_deploy : Op → Bool
  | .Deploy => true
  | _ => false

/-- `Op::is_mint`. -/
def Op.is_mint : Op → Bool
  | .Mint => true
  | _ => false

/-- `Op::is_transfer`. -/
def Op.is_transfer : Op → Bool
  | .Transfer => true
  | _ => false

/-- `Display for Op`. -/
def Op.toStr : Op → String
  | .Deploy => "deploy"
  | .Mint => "mint"
  | .Transfer => "transfer"

/-- ASCII lowercasing, the effect of Rust's `to_lowercase` on the inputs
`Op::from_str` distinguishes. -/
def asciiToLower (s : String) : String :=
  ⟨s.data.map (fun c =>
    if 65 ≤ c.toNat ∧ c.toNat ≤ 90 then Char.ofNat (c.toNat + 32) else c)⟩

/-- `FromStr for Op`: lowercases its input first. -/
def Op.from_str (s : String) : Except String Op :=
  if asciiToLower s = "deploy" then .ok .Deploy
  else if asciiToLower s = "mint" then .ok .Mint
  else if asciiToLower s = "transfer" then .ok .Transfer
  else .error ("invalid operation: " ++ s)

/-- `Serialize for Op`: the display string. -/
def serializeOp (o : Op) : Json := .str o.toStr

/-- `Deserialize for Op`: deserialize a string, then `Op::from_str`. -/
def opFromJson : Json → Except String Op
  | .str s => Op.from_str s
  | _ => .error "invalid type: expected a string"

/-- `struct Deploy` (`max`, `lim` are `u64`, modelled as `Nat`; the 64-bit
range appears as a hypothesis wherever the code depends on it). -/
structure Deploy where
  p : Protocol
  tick : String
  max : Nat
  lim : Nat
deriving DecidableEq, Repr

/-- `struct Mint` (`amt` is `u64`). -/
structure Mint where
  p : Protocol
  tick : String
  id : Option String
  amt : Nat
deriving DecidableEq, Repr

/-- `struct TransferItem` (`recv` is a 160-bit `Address`, `amt` an
`i64` serialized as a plain JSON number). -/
structure TransferItem where
  recv : Address
  amt : Int
deriving DecidableEq, Repr

/-- `struct Transfer`. -/
structure Transfer where
  p : Protocol
  tick : String
  «to» : List TransferItem
deriving DecidableEq, Repr

/-- Looking a struct field up in a JSON object (serde derive: missing
fields are an error; unknown fields are ignored). -/
def getField (fields : List (String × Json)) (name : String) : Except String Json :=
  match fields.lookup name with
  | some j => .ok j
  | none => .error ("missing field " ++ name)

def strFromJson : Json → Except String String
  | .str s => .ok s
  | _ => .error "invalid type: expected a string"

/-- `ethers::types::Address` (H160) serialization: lowercase hex, zero
padded to 40 digits, with a `0x` marker in front. -/
def addrToString (a : Nat) : String :=
  ⟨'0' :: 'x' :: (List.replicate (40 - (digitsLE 16 a).length) 0 ++
      (digitsLE 16 a).reverse).map hexDigitChar⟩

/-- H160 deserialization: requires the `0x` marker and exactly 40 hex
digits (case-insensitive). -/
def parseAddress (s : String) : Except String Nat :=
  match s.data with
  | c0 :: c1 :: rest =>
    if c0 = '0' ∧ c1 = 'x' then
      if rest.length = 40 then
        match parseDigitsAux 16 rest 0 with
        | some v => .ok v
        | none => .error "invalid hex character"
      else .error "invalid length"
    else .error "missing 0x"
  | _ => .error "missing 0x"

/-- `i64` values pass through JSON numbers unchanged; out-of-range numbers
are a deserialization error. -/
def parseI64 : Json → Except String Int
  | .num n => if -(2 : Int) ^ 63 ≤ n ∧ n < 2 ^ 63 then .ok n else .error "i64 out of range"
  | _ => .error "invalid type: expected i64"

/-- Derived serde serialization of `TransferItem`. -/
def serializeTransferItem (it : TransferItem) : Json :=
  .obj [("recv", .str (addrToString it.recv)), ("amt", .num it.amt)]

/-- Derived serde deserialization of `TransferItem`. -/
def deserializeTransferItem (j : Json) : Except String TransferItem := do
  match j with
  | .obj fields =>
    let recvJ ← getField fields "recv"
    let recv ← match recvJ with
      | .str s => parseAddress s
      | _ => Except.error "invalid type: expected a string"
    let amtJ ← getField fields "amt"
    let amt ← parseI64 amtJ
    return ⟨recv, amt⟩
  | _ => Except.error "invalid type: expected object"

/-- `Serialize for Deploy` from `src/lib.rs`: fields `p`, `op` (the fixed
string `"deploy"`), `tick`, and `max`/`lim` as decimal strings. -/
def serializeDeploy (d : Deploy) : Json :=
  .obj [("p", serializeProtocol d.p), ("op", .str "deploy"), ("tick", .str d.tick),
        ("max", .str (natToString d.max)), ("lim", .str (natToString d.lim))]

/-- `Deserialize for Deploy`: deserialize the `DeployOp` helper struct
(`max`/`lim` via `DisplayFromStr`), then reject any operation other than
`deploy`. -/
def deserializeDeploy (j : Json) : Except String Deploy := do
  match j with
  | .obj fields =>
    let p ← getField fields "p" >>= deserializeProtocol
    let op ← getField fields "op" >>= opFromJson
    let tick ← getField fields "tick" >>= strFromJson
    let max ← getField fields "max" >>= strFromJson >>= parseU64
    let lim ← getField fields "lim" >>= strFromJson >>= parseU64
    if op.is_deploy then return ⟨p, tick, max, lim⟩
    else Except.error ("Invalid operation: " ++ op.toStr ++ ", expected deploy")
  | _ => Except.error "invalid type: expected object"

/-- `Serialize for Mint`: the `id` member is present exactly when the
field is `Some`. -/
def serializeMint (m : Mint) : Json :=
  .obj ([("p", serializeProtocol m.p), ("op", .str "mint"), ("tick", .str m.tick)] ++
    (match m.id with
     | some i => [("id", Json.str i)]
     | none => []) ++
    [("amt", .str (natToString m.amt))])

/-- The optional `id` member of a `MintOp` object: absent or `null` is
`None`, a string is `Some`, anything else is an error. -/
def mintIdFromFields (fields : List (String × Json)) : Except String (Option String) :=
  match fields.lookup "id" with
  | none => pure none
  | some Json.null => pure none
  | some (Json.str s) => pure (some s)
  | some _ => Except.error "invalid type: expected a string"

/-- `Deserialize for Mint` via the `MintOp` helper struct: `id` is an
optional field, then any operation other than `mint` is rejected. -/
def deserializeMint (j : Json) : Except String Mint := do
  match j with
  | .obj fields =>
    let p ← getField fields "p" >>= deserializeProtocol
    let op ← getField fields "op" >>= opFromJson
    let tick ← getField fields "tick" >>= strFromJson
    let id ← mintIdFromFields fields
    let amt ← getField fields "amt" >>= strFromJson >>= parseU64
    if op.is_mint then return ⟨p, tick, id, amt⟩
    else Except.error ("Invalid operation: " ++ op.toStr ++ ", expected mint")
  | _ => Except.error "invalid type: expected object"

/-- `Serialize for Transfer`. -/
def serializeTransfer (t : Transfer) : Json :=
  .obj [("p", serializeProtocol t.p), ("op", .str "transfer"), ("tick", .str t.tick),
        ("to", .arr (t.«to».map serializeTransferItem))]

/-- The `to` member of a `TransferOp` object: a JSON array of transfer
items. -/
def transferItemsFromJson : Json → Except String (List TransferItem)
  | .arr l => l.mapM deserializeTransferItem
  | _ => Except.error "invalid type: expected a sequence"

/-- `Deserialize for Transfer` via the `TransferOp` helper struct. -/
def deserializeTransfer (j : Json) : Except String Transfer := do
  match j with
  | .obj fields =>
    let p ← getField fields "p" >>= deserializeProtocol
    let op ← getField fields "op" >>= opFromJson
    let tick ← getField fields "tick" >>= strFromJson
    let items ← getField fields "to" >>= transferItemsFromJson
    if op.is_transfer then return ⟨p, tick, items⟩
    else Except.error ("Invalid operation: " ++ op.toStr ++ ", expected transfer")
  | _ => Except.error "invalid type: expected object"

/-- `CALL_DATA_PREFIX` from `src/lib.rs`. -/
def CALL_DATA_PREFIX : String := "data:,"

/-- `InscriptionCalldata::calldata` for `Deploy` (from the
`impl_inscription_calldata!` macro): the marker's bytes followed by the
bytes `serde_json::to_writer` appends. -/
def Deploy.calldata (d : Deploy) : List Nat :=
  utf8Encode CALL_DATA_PREFIX.data ++ utf8Encode (jsonRender (serializeDeploy d)).data

/-- `InscriptionCalldata::calldata` for `Mint`. -/
def Mint.calldata (m : Mint) : List Nat :=
  utf8Encode CALL_DATA_PREFIX.data ++ utf8Encode (jsonRender (serializeMint m)).data

/-- `InscriptionCalldata::calldata` for `Transfer`. -/
def Transfer.calldata (t : Transfer) : List Nat :=
  utf8Encode CALL_DATA_PREFIX.data ++ utf8Encode (jsonRender (serializeTransfer t)).data

/-- `InscriptionCalldata::try_calldata_string`
(`String::from_utf8(self.calldata())`), modelled as returning the decoded
scalar values. -/
def Deploy.try_calldata_string (d : Deploy) : Option (List Nat) := utf8Decode d.calldata

def Mint.try_calldata_string (m : Mint) : Option (List Nat) := utf8Decode m.calldata

def Transfer.try_calldata_string (t : Transfer) : Option (List Nat) := utf8Decode t.calldata

/-! ### Serialization lemmas -/

theorem except_bind_ok {ε α β : Type} (x : Except ε α) (f : α → Except ε β) (b : β) :
    (x >>= f) = Except.ok b ↔ ∃ a, x = Except.ok a ∧ f a = Except.ok b := by
  cases x with
  | error e => simp [Bind.bind, Except.bind]
  | ok a => simp [Bind.bind, Except.bind]

theorem op_from_str_deploy : Op.from_str "deploy" = Except.ok Op.Deploy := rfl

theorem op_from_str_mint : Op.from_str "mint" = Except.ok Op.Mint := rfl

theorem op_from_str_transfer : Op.from_str "transfer" = Except.ok Op.Transfer := rfl

theorem namedProtocol_from_str_as_str (k : NamedProtocol) :
    NamedProtocol.from_str k.as_str = some k := by
  cases k <;> rfl

/-- Deserializing a serialized protocol recovers it, provided the value is
in normal form. -/
theorem deserializeProtocol_roundtrip (p : Protocol) (h : protocolNormalized p = true) :
    deserializeProtocol (serializeProtocol p) = Except.ok p := by
  rcases p with ⟨k⟩
  cases k with
  | Named n =>
    simp [serializeProtocol, serializeProtocolKind, deserializeProtocol,
      deserializeProtocolKind, namedProtocol_from_str_as_str n, Except.map]
  | Other s =>
    have hn : NamedProtocol.from_str s = none := by
      simpa [protocolNormalized, Option.isNone_iff_eq_none] using h
    simp [serializeProtocol, serializeProtocolKind, deserializeProtocol,
      deserializeProtocolKind, hn, Except.map]

theorem digitsVal_replicate_zero (b : Nat) :
    ∀ (k : Nat) (xs : List Nat),
      digitsVal b (List.replicate k 0 ++ xs) = digitsVal b xs
  | 0, xs => rfl
  | k + 1, xs => by
    show digitsVal b (0 :: (List.replicate k 0 ++ xs)) = digitsVal b xs
    rw [digitsVal, digitsVal_replicate_zero b k xs]
    simp

theorem parseAddress_mk (c0 c1 : Char) (rest : List Char) :
    parseAddress ⟨c0 :: c1 :: rest⟩ =
      (if c0 = '0' ∧ c1 = 'x' then
        if rest.length = 40 then
          match parseDigitsAux 16 rest 0 with
          | some v => Except.ok v
          | none => Except.error "invalid hex character"
        else Except.error "invalid length"
      else Except.error "missing 0x") := rfl

/-- Parsing inverts the zero-padded lowercase-hex rendering for every
160-bit address. -/
theorem parseAddress_addrToString (a : Nat) (h : a < 2 ^ 160) :
    parseAddress (addrToString a) = Except.ok a := by
  have hdd : digitsLE 16 a = Nat.digits 16 a := digitsLE_eq_digits 16 a (by omega)
  have hlen : (Nat.digits 16 a).length ≤ 40 := by
    by_cases h0 : a = 0
    · subst h0; simp
    · have h16 : (16 : Nat) ^ 40 = 2 ^ 160 := by norm_num
      have hlt : a < 16 ^ 40 := by rw [h16]; exact h
      have hlog := Nat.log_lt_of_lt_pow h0 hlt
      rw [Nat.digits_len 16 a (by omega) h0]
      omega
  have hdig : ∀ d ∈ List.replicate (40 - (Nat.digits 16 a).length) 0 ++
      (Nat.digits 16 a).reverse, d < 16 := by
    intro d hd
    rcases List.mem_append.mp hd with h1 | h1
    · have := List.eq_of_mem_replicate h1
      omega
    · exact Nat.digits_lt_base (by omega) (List.mem_reverse.mp h1)
  have hlen2 : ((List.replicate (40 - (Nat.digits 16 a).length) 0 ++
      (Nat.digits 16 a).reverse).map hexDigitChar).length = 40 := by
    simp
    omega
  rw [addrToString, hdd, parseAddress_mk, if_pos ⟨rfl, rfl⟩, if_pos hlen2,
    parseDigitsAux_spec 16 (by omega) _ 0 hdig]
  simp only [Nat.zero_mul, Nat.zero_add]
  rw [digitsVal_replicate_zero 16 _ ((Nat.digits 16 a).reverse),
    digitsVal_reverse_digits 16 a (by omega)]

/-- `TransferItem` serde round trip (`recv` is 160-bit, `amt` an `i64`). -/
theorem deserializeTransferItem_roundtrip (it : TransferItem)
    (hr : it.recv < 2 ^ 160)
    (ha : -(2 : Int) ^ 63 ≤ it.amt ∧ it.amt < 2 ^ 63) :
    deserializeTransferItem (serializeTransferItem it) = Except.ok it := by
  have h1 := parseAddress_addrToString it.recv hr
  norm_num at ha
  simp [serializeTransferItem, deserializeTransferItem, getField, List.lookup, h1,
    parseI64, ha, Bind.bind, Except.bind, pure, Except.pure]

theorem mapM_deserialize_serialize (l : List TransferItem)
    (h : ∀ it ∈ l, deserializeTransferItem (serializeTransferItem it) = Except.ok it) :
    (l.map serializeTransferItem).mapM deserializeTransferItem = Except.ok l := by
  induction l with
  | nil => rfl
  | cons x xs ih =>
    rw [List.map_cons, List.mapM_cons, h x (by simp),
      ih (fun it hit => h it (by simp [hit]))]
    rfl

/-- `Deploy` serde round trip, for normal-form protocol values and 64-bit
numeric fields. -/
theorem deserializeDeploy_roundtrip (d : Deploy) (hp : protocolNormalized d.p = true)
    (hmax : d.max < 2 ^ 64) (hlim : d.lim < 2 ^ 64) :
    deserializeDeploy (serializeDeploy d) = Except.ok d := by
  have h1 := deserializeProtocol_roundtrip d.p hp
  have h2 := parseU64_natToString d.max hmax
  have h3 := parseU64_natToString d.lim hlim
  simp [serializeDeploy, deserializeDeploy, getField, List.lookup, h1, h2, h3,
    strFromJson, opFromJson, op_from_str_deploy, Op.is_deploy, Bind.bind, Except.bind,
    pure, Except.pure]

/-- `Mint` serde round trip. -/
theorem deserializeMint_roundtrip (m : Mint) (hp : protocolNormalized m.p = true)
    (hamt : m.amt < 2 ^ 64) :
    deserializeMint (serializeMint m) = Except.ok m := by
  have h1 := deserializeProtocol_roundtrip m.p hp
  have h2 := parseU64_natToString m.amt hamt
  rcases hid : m.id with _ | i <;>
    simp [serializeMint, deserializeMint, mintIdFromFields, getField, List.lookup,
      h1, h2, hid, strFromJson, opFromJson, op_from_str_mint, Op.is_mint, Bind.bind,
      Except.bind, pure, Except.pure] <;>
    rw [← hid]

/-- `Transfer` serde round trip. -/
theorem deserializeTransfer_roundtrip (t : Transfer) (hp : protocolNormalized t.p = true)
    (hitems : ∀ it ∈ t.«to», it.recv < 2 ^ 160 ∧
      -(2 : Int) ^ 63 ≤ it.amt ∧ it.amt < 2 ^ 63) :
    deserializeTransfer (serializeTransfer t) = Except.ok t := by
  have h1 := deserializeProtocol_roundtrip t.p hp
  have h2 : (t.«to».map serializeTransferItem).mapM deserializeTransferItem =
      Except.ok t.«to» := by
    refine mapM_deserialize_serialize t.«to» (fun it hit => ?_)
    obtain ⟨ha, hb, hc⟩ := hitems it hit
    exact deserializeTransferItem_roundtrip it ha ⟨hb, hc⟩
  simp [serializeTransfer, deserializeTransfer, transferItemsFromJson, getField,
    List.lookup, h1, strFromJson, opFromJson, op_from_str_transfer, Op.is_transfer,
    Bind.bind, Except.bind, pure, Except.pure]
  simp only [List.mapM] at h2
  rw [h2]

/-- If deserializing a `Deploy` from an object succeeds, the object's `op`
member parsed to the `deploy` operation. -/
theorem deserializeDeploy_ok_op (fields : List (String × Json)) (d : Deploy)
    (h : deserializeDeploy (.obj fields) = Except.ok d) :
    ∃ j o, fields.lookup "op" = some j ∧ opFromJson j = Except.ok o ∧
      o.is_deploy = true := by
  have h2 : ((getField fields "p" >>= deserializeProtocol) >>= fun p =>
      (getField fields "op" >>= opFromJson) >>= fun op =>
      (getField fields "tick" >>= strFromJson) >>= fun tick =>
      (getField fields "max" >>= strFromJson >>= parseU64) >>= fun mx =>
      (getField fields "lim" >>= strFromJson >>= parseU64) >>= fun lm =>
      if op.is_deploy then Except.ok (⟨p, tick, mx, lm⟩ : Deploy)
      else Except.error ("Invalid operation: " ++ op.toStr ++ ", expected deploy")) =
      Except.ok d := h
  rw [except_bind_ok] at h2
  obtain ⟨p, hp, h2⟩ := h2
  rw [except_bind_ok] at h2
  obtain ⟨op, hop, h2⟩ := h2
  rw [except_bind_ok] at h2
  obtain ⟨tick, htick, h2⟩ := h2
  rw [except_bind_ok] at h2
  obtain ⟨mx, hmx, h2⟩ := h2
  rw [except_bind_ok] at h2
  obtain ⟨lm, hlm, h2⟩ := h2
  rw [except_bind_ok] at hop
  obtain ⟨j, hj, hjo⟩ := hop
  have hjl : fields.lookup "op" = some j := by
    rcases hl : fields.lookup "op" with _ | j2
    · rw [getField, hl] at hj
      exact absurd hj (by simp)
    · rw [getField, hl] at hj
      simpa using hj
  refine ⟨j, op, hjl, hjo, ?_⟩
  by_cases hd : op.is_deploy
  · exact hd
  · rw [if_neg hd] at h2
    exact absurd h2 (by simp)

/-- If deserializing a `Mint` from an object succeeds, the object's `op`
member parsed to the `mint` operation. -/
theorem deserializeMint_ok_op (fields : List (String × Json)) (m : Mint)
    (h : deserializeMint (.obj fields) = Except.ok m) :
    ∃ j o, fields.lookup "op" = some j ∧ opFromJson j = Except.ok o ∧
      o.is_mint = true := by
  have h2 : ((getField fields "p" >>= deserializeProtocol) >>= fun p =>
      (getField fields "op" >>= opFromJson) >>= fun op =>
      (getField fields "tick" >>= strFromJson) >>= fun tick =>
      mintIdFromFields fields >>= fun idv =>
      (getField fields "amt" >>= strFromJson >>= parseU64) >>= fun amt =>
      if op.is_mint then Except.ok (⟨p, tick, idv, amt⟩ : Mint)
      else Except.error ("Invalid operation: " ++ op.toStr ++ ", expected mint")) =
      Except.ok m := h
  rw [except_bind_ok] at h2
  obtain ⟨p, hp, h2⟩ := h2
  rw [except_bind_ok] at h2
  obtain ⟨op, hop, h2⟩ := h2
  rw [except_bind_ok] at h2
  obtain ⟨tick, htick, h2⟩ := h2
  rw [except_bind_ok] at h2
  obtain ⟨idv, hid, h2⟩ := h2
  rw [except_bind_ok] at h2
  obtain ⟨amt, hamt, h2⟩ := h2
  rw [except_bind_ok] at hop
  obtain ⟨j, hj, hjo⟩ := hop
  have hjl : fields.lookup "op" = some j := by
    rcases hl : fields.lookup "op" with _ | j2
    · rw [getField, hl] at hj
      exact absurd hj (by simp)
    · rw [getField, hl] at hj
      simpa using hj
  refine ⟨j, op, hjl, hjo, ?_⟩
  by_cases hd : op.is_mint
  · exact hd
  · rw [if_neg hd] at h2
    exact absurd h2 (by simp)

/-- If deserializing a `Transfer` from an object succeeds, the object's
`op` member parsed to the `transfer` operation. -/
theorem deserializeTransfer_ok_op (fields : List (String × Json)) (tr : Transfer)
    (h : deserializeTransfer (.obj fields) = Except.ok tr) :
    ∃ j o, fields.lookup "op" = some j ∧ opFromJson j = Except.ok o ∧
      o.is_transfer = true := by
  have h2 : ((getField fields "p" >>= deserializeProtocol) >>= fun p =>
      (getField fields "op" >>= opFromJson) >>= fun op =>
      (getField fields "tick" >>= strFromJson) >>= fun tick =>
      (getField fields "to" >>= transferItemsFromJson) >>= fun items =>
      if op.is_transfer then Except.ok (⟨p, tick, items⟩ : Transfer)
      else Except.error ("Invalid operation: " ++ op.toStr ++ ", expected transfer")) =
      Except.ok tr := h
  rw [except_bind_ok] at h2
  obtain ⟨p, hp, h2⟩ := h2
  rw [except_bind_ok] at h2
  obtain ⟨op, hop, h2⟩ := h2
  rw [except_bind_ok] at h2
  obtain ⟨tick, htick, h2⟩ := h2
  rw [except_bind_ok] at h2
  obtain ⟨items, hitems, h2⟩ := h2
  rw [except_bind_ok] at hop
  obtain ⟨j, hj, hjo⟩ := hop
  have hjl : fields.lookup "op" = some j := by
    rcases hl : fields.lookup "op" with _ | j2
    · rw [getField, hl] at hj
      exact absurd hj (by simp)
    · rw [getField, hl] at hj
      simpa using hj
  refine ⟨j, op, hjl, hjo, ?_⟩
  by_cases hd : op.is_transfer
  · exact hd
  · rw [if_neg hd] at h2
    exact absurd h2 (by simp)

/-! ### Claim theorems for the calldata encoding and serde -/

/-- C9: for every `Deploy`, `Mint` or `Transfer` value, `calldata()`
returns a byte buffer that begins with the bytes of `"data:,"`
(`[100, 97, 116, 97, 58, 44]`) and is valid UTF-8 — decoding it always
succeeds, so `try_calldata_string` never returns an error and the
`expect` inside `calldata_string` never panics. -/
theorem calldata_utf8_valid :
    utf8Encode CALL_DATA_PREFIX.data = [100, 97, 116, 97, 58, 44] ∧
    (∀ d : Deploy, (∃ t, d.calldata = utf8Encode CALL_DATA_PREFIX.data ++ t) ∧
      ∃ s, d.try_calldata_string = some s) ∧
    (∀ m : Mint, (∃ t, m.calldata = utf8Encode CALL_DATA_PREFIX.data ++ t) ∧
      ∃ s, m.try_calldata_string = some s) ∧
    (∀ tr : Transfer, (∃ t, tr.calldata = utf8Encode CALL_DATA_PREFIX.data ++ t) ∧
      ∃ s, tr.try_calldata_string = some s) := by
  refine ⟨by decide, fun d => ⟨⟨_, rfl⟩, ?_⟩, fun m => ⟨⟨_, rfl⟩, ?_⟩,
    fun tr => ⟨⟨_, rfl⟩, ?_⟩⟩
  · rw [Deploy.try_calldata_string, Deploy.calldata, ← utf8Encode_append,
      utf8Decode_utf8Encode]
    exact ⟨_, rfl⟩
  · rw [Mint.try_calldata_string, Mint.calldata, ← utf8Encode_append,
      utf8Decode_utf8Encode]
    exact ⟨_, rfl⟩
  · rw [Transfer.try_calldata_string, Transfer.calldata, ← utf8Encode_append,
      utf8Decode_utf8Encode]
    exact ⟨_, rfl⟩

/-- C10 (counterexample): serde round-tripping is not the identity on
every value. The protocol field is an untagged enum tried `Named` first,
so the legal value `Protocol(ProtocolKind::Other("erc-20"))` serializes to
the string `"erc-20"` and deserializes back to
`Protocol(ProtocolKind::Named(Erc_20))`, a different value. -/
theorem serde_roundtrip_counterexample :
    deserializeDeploy (serializeDeploy
        ⟨⟨.Other "erc-20"⟩, "gwei", 21000000, 1000⟩) =
      Except.ok ⟨⟨.Named .Erc_20⟩, "gwei", 21000000, 1000⟩ ∧
    (⟨⟨.Named .Erc_20⟩, "gwei", 21000000, 1000⟩ : Deploy) ≠
      ⟨⟨.Other "erc-20"⟩, "gwei", 21000000, 1000⟩ := by
  constructor
  · rfl
  · decide

/-- C10 (amended): serde round trips — deserializing the serialization
returns the original value — for every `Deploy`, `Mint` and `Transfer`
value whose protocol is in normal form (not an `Other` string that names a
known protocol); and deserializing any JSON object whose `op` member names
a different operation than the target type fails with an error, whatever
the other members. The numeric bounds state the `u64`/`i64`/`H160` ranges
of the Rust field types. -/
theorem serde_roundtrip_and_op_check :
    (∀ d : Deploy, protocolNormalized d.p = true → d.max < 2 ^ 64 → d.lim < 2 ^ 64 →
      deserializeDeploy (serializeDeploy d) = Except.ok d) ∧
    (∀ m : Mint, protocolNormalized m.p = true → m.amt < 2 ^ 64 →
      deserializeMint (serializeMint m) = Except.ok m) ∧
    (∀ t : Transfer, protocolNormalized t.p = true →
      (∀ it ∈ t.«to», it.recv < 2 ^ 160 ∧
        -(2 : Int) ^ 63 ≤ it.amt ∧ it.amt < 2 ^ 63) →
      deserializeTransfer (serializeTransfer t) = Except.ok t) ∧
    (∀ (fields : List (String × Json)) (j : Json) (o : Op),
      fields.lookup "op" = some j → opFromJson j = Except.ok o →
      (o ≠ Op.Deploy → ∀ d, deserializeDeploy (.obj fields) ≠ Except.ok d) ∧
      (o ≠ Op.Mint → ∀ m, deserializeMint (.obj fields) ≠ Except.ok m) ∧
      (o ≠ Op.Transfer → ∀ tr, deserializeTransfer (.obj fields) ≠ Except.ok tr)) := by
  refine ⟨deserializeDeploy_roundtrip, deserializeMint_roundtrip,
    deserializeTransfer_roundtrip, ?_⟩
  intro fields j o hl ho
  refine ⟨?_, ?_, ?_⟩
  · intro hne d h
    obtain ⟨j2, o2, hl2, ho2, hop2⟩ := deserializeDeploy_ok_op fields d h
    rw [hl] at hl2
    injection hl2 with hj2
    subst hj2
    rw [ho] at ho2
    injection ho2 with ho2
    subst ho2
    cases o <;> simp [Op.is_deploy] at hop2 <;> exact hne rfl
  · intro hne m h
    obtain ⟨j2, o2, hl2, ho2, hop2⟩ := deserializeMint_ok_op fields m h
    rw [hl] at hl2
    injection hl2 with hj2
    subst hj2
    rw [ho] at ho2
    injection ho2 with ho2
    subst ho2
    cases o <;> simp [Op.is_mint] at hop2 <;> exact hne rfl
  · intro hne tr h
    obtain ⟨j2, o2, hl2, ho2, hop2⟩ := deserializeTransfer_ok_op fields tr h
    rw [hl] at hl2
    injection hl2 with hj2
    subst hj2
    rw [ho] at ho2
    injection ho2 with ho2
    subst ho2
    cases o <;> simp [Op.is_transfer] at hop2 <;> exact hne rfl

theorem serde_roundtrip_and_op_check_witness :
    deserializeDeploy (serializeDeploy
        ⟨⟨.Named .Erc_20⟩, "gwei", 21000000, 1000⟩) =
      Except.ok ⟨⟨.Named .Erc_20⟩, "gwei", 21000000, 1000⟩ ∧
    (∀ d, deserializeDeploy
        (.obj [("p", .str "erc-20"), ("op", .str "mint"), ("tick", .str "gwei"),
               ("max", .str "21000000"), ("lim", .str "1000")]) ≠ Except.ok d) :=
  ⟨serde_roundtrip_and_op_check.1 ⟨⟨.Named .Erc_20⟩, "gwei", 21000000, 1000⟩
      rfl (by decide) (by decide),
    (serde_roundtrip_and_op_check.2.2.2
      [("p", .str "erc-20"), ("op", .str "mint"), ("tick", .str "gwei"),
       ("max", .str "21000000"), ("lim", .str "1000")]
      (.str "mint") Op.Mint rfl rfl).1 (by decide)⟩
